import Mathlib

/-!
Verification development for the pyMOR p-AAA reductor
(`src/pymor/reductors/aaa.py`).

The numerical code operates on complex floating-point data.  We embed it
over an exact scalar type `Cx` of complex numbers with rational real and
imaginary parts, so that every definition is executable and every concrete
run can be checked by `decide`.  Floating-point magnitudes `np.abs z` are
tracked through their squares `Cx.absSq z = re z ^ 2 + im z ^ 2 ∈ ℚ`
(the square of the modulus), because the modulus itself is irrational.
Squaring is strictly monotone on nonnegative reals, so every comparison,
maximum and argmax of magnitudes that the source performs is represented
faithfully: `|a| ≤ |b| ↔ absSq a ≤ absSq b`, and the relative tolerance
check `err ≤ tol * max|samples|` (with `tol ≥ 0`) becomes
`errSq ≤ tol ^ 2 * maxAbsSq`.

Python/numpy conventions used throughout the embedding:
* numpy arrays and tensors are stored row-major (C order); a tensor is a
  shape together with its flat data list, and `np.reshape(-1)` is the
  identity on the flat data;
* `itertools.product` and `np.ndindex` enumerate tuples with the last
  component varying fastest, which matches the row-major flattening and
  is modelled by `cartProd` below;
* division by an exact zero (which numpy would turn into `inf`/`nan`)
  yields `0` in Lean; all statements about divided differences are made
  under the disjointness hypotheses that rule this case out.
-/

/-- Complex numbers with rational components: the exact model of the
`complex128` scalars the reductor computes with. -/
structure Cx where
  re : ℚ
  im : ℚ
deriving DecidableEq, Repr

namespace Cx

instance : Zero Cx := ⟨⟨0, 0⟩⟩

instance : One Cx := ⟨⟨1, 0⟩⟩

instance : Add Cx := ⟨fun a b => ⟨a.re + b.re, a.im + b.im⟩⟩

instance : Neg Cx := ⟨fun a => ⟨-a.re, -a.im⟩⟩

instance : Mul Cx := ⟨fun a b => ⟨a.re * b.re - a.im * b.im, a.re * b.im + a.im * b.re⟩⟩

/-- Complex inverse, with `0⁻¹ = 0`. -/
instance : Inv Cx := ⟨fun a => ⟨a.re / (a.re ^ 2 + a.im ^ 2), -a.im / (a.re ^ 2 + a.im ^ 2)⟩⟩

theorem zero_def : (0 : Cx) = ⟨0, 0⟩ := rfl

theorem one_def : (1 : Cx) = ⟨1, 0⟩ := rfl

theorem add_def (a b : Cx) : a + b = ⟨a.re + b.re, a.im + b.im⟩ := rfl

theorem neg_def (a : Cx) : -a = ⟨-a.re, -a.im⟩ := rfl

theorem mul_def (a b : Cx) :
    a * b = ⟨a.re * b.re - a.im * b.im, a.re * b.im + a.im * b.re⟩ := rfl

theorem inv_def (a : Cx) :
    a⁻¹ = ⟨a.re / (a.re ^ 2 + a.im ^ 2), -a.im / (a.re ^ 2 + a.im ^ 2)⟩ := rfl

theorem ext_iff {a b : Cx} : a = b ↔ a.re = b.re ∧ a.im = b.im := by
  cases a; cases b
  simp only [mk.injEq]

theorem sumSq_eq_zero {x y : ℚ} : x ^ 2 + y ^ 2 = 0 ↔ x = 0 ∧ y = 0 := by
  constructor
  · intro h
    constructor
    · nlinarith [sq_nonneg x, sq_nonneg y]
    · nlinarith [sq_nonneg x, sq_nonneg y]
  · rintro ⟨hx, hy⟩
    simp [hx, hy]

instance : Field Cx :=
  Field.ofMinimalAxioms Cx
    (fun a b c => ext_iff.mpr ⟨by simp [add_def]; ring, by simp [add_def]; ring⟩)
    (fun a => ext_iff.mpr ⟨by simp [add_def, zero_def], by simp [add_def, zero_def]⟩)
    (fun a => ext_iff.mpr ⟨by simp [add_def, neg_def, zero_def],
      by simp [add_def, neg_def, zero_def]⟩)
    (fun a b c => ext_iff.mpr ⟨by simp [mul_def]; ring, by simp [mul_def]; ring⟩)
    (fun a b => ext_iff.mpr ⟨by simp [mul_def]; ring, by simp [mul_def]; ring⟩)
    (fun a => ext_iff.mpr ⟨by simp [mul_def, one_def], by simp [mul_def, one_def]⟩)
    (fun a ha => by
      have hne : a.re ^ 2 + a.im ^ 2 ≠ 0 := by
        intro h
        exact ha (ext_iff.mpr ⟨(sumSq_eq_zero.mp h).1, (sumSq_eq_zero.mp h).2⟩)
      refine ext_iff.mpr ⟨?_, ?_⟩
      · simp only [mul_def, inv_def, one_def]
        field_simp
        ring
      · simp only [mul_def, inv_def, one_def]
        field_simp
        ring)
    (ext_iff.mpr ⟨by simp [inv_def, zero_def], by simp [inv_def, zero_def]⟩)
    (fun a b c => ext_iff.mpr ⟨by simp [mul_def, add_def]; ring, by simp [mul_def, add_def]; ring⟩)
    ⟨0, 1, by simp [zero_def, one_def]⟩

/-- Complex conjugate (`numpy.conj`). -/
def conj (z : Cx) : Cx := ⟨z.re, -z.im⟩

/-- Squared modulus: the exact representation of `np.abs z` (see the file
header; magnitudes are compared through their squares). -/
def absSq (z : Cx) : ℚ := z.re ^ 2 + z.im ^ 2

/-- Embedding of the rationals (real axis). -/
def ofRat (q : ℚ) : Cx := ⟨q, 0⟩

/-- The imaginary unit. -/
def I : Cx := ⟨0, 1⟩

theorem absSq_nonneg (z : Cx) : 0 ≤ absSq z := by
  have := sq_nonneg z.re
  have := sq_nonneg z.im
  unfold absSq
  linarith

theorem absSq_eq_zero {z : Cx} : absSq z = 0 ↔ z = 0 := by
  unfold absSq
  rw [sumSq_eq_zero, ext_iff]
  rfl

theorem conj_conj (z : Cx) : conj (conj z) = z := by
  cases z; simp [conj]

theorem sub_def (a b : Cx) : a - b = ⟨a.re - b.re, a.im - b.im⟩ := by
  rw [sub_eq_add_neg, add_def, neg_def]
  simp only [mk.injEq]
  constructor <;> ring

end Cx

/-! ## Tensors, list matrices, and index bookkeeping

Numpy arrays are embedded as a shape together with the row-major flat
data list.  `cartProd` enumerates multi-indices in `itertools.product`
order (last component fastest), which is exactly numpy's C order, so
`np.reshape(x, -1)` corresponds to mapping `Tensor.get` over `cartProd`.
-/

/-- All combinations of one element per list, in `itertools.product`
order: the last component varies fastest. -/
def cartProd {α : Type} : List (List α) → List (List α)
  | [] => [[]]
  | xs :: rest => xs.flatMap (fun x => (cartProd rest).map (fun t => x :: t))

/-- Row-major (C order) flat position of multi-index `ix` in shape `shape`. -/
def encodeIx (shape ix : List ℕ) : ℕ :=
  (List.zip shape ix).foldl (fun acc p => acc * p.1 + p.2) 0

/-- A numpy ndarray: shape plus row-major flat data. -/
structure Tensor (K : Type) where
  shape : List ℕ
  data : List K
deriving DecidableEq, Repr

/-- Entry of a tensor at a multi-index. -/
def Tensor.get {K : Type} [Zero K] (t : Tensor K) (ix : List ℕ) : K :=
  t.data.getD (encodeIx t.shape ix) 0

/-- Dense matrix as a list of rows. -/
abbrev Mat (K : Type) := List (List K)

/-- `rs[:, None] ⊛ cs[None, :]` for a binary operation `f`: the outer
(broadcast) combination numpy produces from a column and a row. -/
def outerBy {α K : Type} (f : α → α → K) (rs cs : List α) : Mat K :=
  rs.map (fun r => cs.map (fun c => f r c))

/-- Kronecker product of dense matrices (`np.kron`). -/
def kron {K : Type} [Mul K] (A B : Mat K) : Mat K :=
  A.flatMap (fun ar => B.map (fun br => ar.flatMap (fun a => br.map (fun b => a * b))))

/-- Kronecker product of row vectors (`np.kron` on shapes `(n,)`, `(m,)`). -/
def kronRow {K : Type} [Mul K] (a b : List K) : List K :=
  a.flatMap (fun x => b.map (fun y => x * y))

/-- Elementwise division of equally-shaped matrices. -/
def matDivE {K : Type} [Div K] (A B : Mat K) : Mat K :=
  List.zipWith (List.zipWith (fun a b => a / b)) A B

/-- Matrix product. -/
def matMul {K : Type} [Semiring K] (A B : Mat K) : Mat K :=
  A.map (fun ar => B.transpose.map (fun bc => (List.zipWith (fun x y => x * y) ar bc).sum))

/-- `np.eye n`. -/
def eyeMat {K : Type} [Zero K] [One K] (n : ℕ) : Mat K :=
  (List.range n).map (fun i => (List.range n).map (fun j => if i = j then 1 else 0))

/-- One-hot row vector of length `n` with the unit at `j` (`np.eye(1, n, j)`
has exactly this single row). -/
def oneHotList {K : Type} [Zero K] [One K] (n j : ℕ) : List K :=
  (List.range n).map (fun k => if k = j then 1 else 0)

/-- `np.eye(1, n, j)` as a one-row matrix. -/
def rowOneHot {K : Type} [Zero K] [One K] (n j : ℕ) : Mat K :=
  [oneHotList n j]

/-- Numpy fancy indexing `l[idxs]` of a 1-D array. -/
def sel {K : Type} [Zero K] (l : List K) (idxs : List ℕ) : List K :=
  idxs.map (fun k => l.getD k 0)

/-! ## The Loewner matrix builders (`nd_loewner`, `full_nd_loewner`)

Everything is polymorphic over a field `K`, matching the dtype-polymorphic
numpy code; the reductor instantiates `K := Cx`.
-/

/-- `_ls_part` for one variable: `np.delete(np.arange(len s), p)`, i.e. the
indices `0, …, n-1` not occurring in `p`, in increasing order (the source
invariant is that `p` holds distinct in-range indices). -/
def lsPart1 (p : List ℕ) (n : ℕ) : List ℕ :=
  (List.range n).filter (fun k => ¬ p.contains k)

/-- `_ls_part`: the per-variable least-squares partition complementary to
the interpolation partition. -/
def lsPartOf {K : Type} (itpl_part : List (List ℕ)) (svs : List (List K)) :
    List (List ℕ) :=
  List.zipWith (fun p s => lsPart1 p s.length) itpl_part svs

/-- The denominator grid of `nd_loewner`: the variable-0 location
difference grid `sd = sh[:, None] - s[None]`, Kronecker-multiplied in
source order by the location-difference grids `pd` of the variables
`1 … d-1`. -/
def loewnerDen {K : Type} [Field K] (samples : Tensor K) (svs : List (List K))
    (itpl_part : List (List ℕ)) : Mat K :=
  let d := samples.shape.length
  let ls_part := lsPartOf itpl_part svs
  let s0 := svs.getD 0 []
  let sd := outerBy (fun a b => a - b) (sel s0 (ls_part.getD 0 []))
    (sel s0 (itpl_part.getD 0 []))
  (List.range' 1 (d - 1)).foldl (fun acc i =>
    kron acc (outerBy (fun a b => a - b) (sel (svs.getD i []) (ls_part.getD i []))
      (sel (svs.getD i []) (itpl_part.getD i [])))) sd

/-- The numerator grid of `nd_loewner`: `samples1.T - samples0`, where
`samples0`/`samples1` are the row-major flattenings of the tensor
restricted to the interpolation / least-squares index combinations. -/
def loewnerNum {K : Type} [Field K] (samples : Tensor K) (svs : List (List K))
    (itpl_part : List (List ℕ)) : Mat K :=
  outerBy (fun a b => a - b)
    ((cartProd (lsPartOf itpl_part svs)).map (fun ix => samples.get ix))
    ((cartProd itpl_part).map (fun ix => samples.get ix))

/-- `nd_loewner(samples, svs, itpl_part)`: the higher-dimensional Loewner
matrix built from the least-squares partition only.  Mirrors the source:
the sample difference matrix divided elementwise by the Kronecker
combination of the per-variable location-difference grids. -/
def nd_loewner {K : Type} [Field K] (samples : Tensor K) (svs : List (List K))
    (itpl_part : List (List ℕ)) : Mat K :=
  matDivE (loewnerNum samples svs itpl_part) (loewnerDen samples svs itpl_part)

/-- Interleave the fixed indices (at mask-0 positions) and the free indices
(at mask-1 positions) into one full multi-index; models building `l_j`
with slices at the mask-1 positions. -/
def mergeIdx : List ℕ → List ℕ → List ℕ → List ℕ
  | [], _, _ => []
  | m :: ms, fixed, free =>
    if m = 0 then fixed.headD 0 :: mergeIdx ms fixed.tail free
    else free.headD 0 :: mergeIdx ms fixed free.tail

/-- `samples[tuple(l_j)]`: the subtensor obtained by fixing the mask-0
coordinates at `fixed` and keeping the mask-1 coordinates free. -/
def sliceTensor {K : Type} [Zero K] (t : Tensor K) (mask : List ℕ) (fixed : List ℕ) :
    Tensor K :=
  let newShape := (List.zip mask t.shape).filterMap
    (fun p => if p.1 = 1 then some p.2 else none)
  { shape := newShape
    data := (cartProd (newShape.map List.range)).map
      (fun free => t.get (mergeIdx mask fixed free)) }

/-- Select the entries of `l` at the positions where `mask` is `b`. -/
def maskSel {α : Type} (mask : List ℕ) (b : ℕ) (l : List α) : List α :=
  (List.zip mask l).filterMap (fun p => if p.1 = b then some p.2 else none)

/-- `full_nd_loewner(samples, svs, itpl_part)`: augments `nd_loewner` by
every non-trivial split of the variables into "interpolated" (mask 0)
versus "least-squares" (mask 1), embedding each lower-dimensional Loewner
block through Kronecker selection matrices and stacking vertically. -/
def full_nd_loewner {K : Type} [Field K] (samples : Tensor K)
    (svs : List (List K)) (itpl_part : List (List ℕ)) : Mat K :=
  let n := svs.length
  let L0 := nd_loewner samples svs itpl_part
  (cartProd (List.replicate n [0, 1])).foldl (fun L mask =>
    if mask = List.replicate n 0 ∨ mask = List.replicate n 1 then L
    else
      (cartProd (maskSel mask 0 itpl_part)).foldl (fun L2 j =>
        let lj := mergeIdx mask j (List.replicate n 0)
        let samples0 := sliceTensor samples mask j
        let svs0 := maskSel mask 1 svs
        let itpl0 := maskSel mask 1 itpl_part
        let T := (List.range n).foldl (fun T k =>
          let pk := itpl_part.getD k []
          if mask.getD k 0 = 1 then kron T (eyeMat pk.length)
          else kron T (rowOneHot pk.length (pk.findIdx (fun v => v = lj.getD k 0))))
          [[1]]
        let LL := nd_loewner samples0 svs0 itpl0
        L2 ++ matMul LL T) L) L0

/-! ## Entry formula for `nd_loewner` (machinery for claim C3) -/

/-- Extend every tuple of `R` by one further component drawn from `xs`
(the new component varies fastest, matching `np.kron` block order). -/
def extend1 {α : Type} (R : List (List α)) (xs : List α) : List (List α) :=
  R.flatMap (fun rt => xs.map (fun x => rt ++ [x]))

/-- Matrix of products of componentwise differences of tuples. -/
def tupMat {K : Type} [Field K] (R C : List (List K)) : Mat K :=
  R.map (fun rt => C.map (fun ct => (List.zipWith (fun a b => a - b) rt ct).prod))

/-- Product over all variables `i` of `svs[i][r[i]] - svs[i][c[i]]`: the
denominator of the divided-difference entry of the Loewner matrix. -/
def diffProd {K : Type} [Field K] (svs : List (List K)) (r c : List ℕ) : K :=
  (List.zipWith (fun a b => a - b)
    (List.zipWith (fun sv k => sv.getD k 0) svs r)
    (List.zipWith (fun sv k => sv.getD k 0) svs c)).prod

theorem flatMap_single {α β : Type} (f : α → β) (l : List α) :
    (l.flatMap fun x => [f x]) = l.map f := by
  induction l with
  | nil => rfl
  | cons a l ih => simp [ih]

theorem cartProd_singleton {α : Type} (xs : List α) :
    cartProd [xs] = xs.map (fun x => [x]) := by
  simp [cartProd]
  exact flatMap_single (fun x => [x]) xs

theorem cartProd_append_single {α : Type} (ls : List (List α)) (xs : List α) :
    cartProd (ls ++ [xs]) = extend1 (cartProd ls) xs := by
  induction ls with
  | nil =>
      simp only [List.nil_append, cartProd_singleton, extend1, cartProd]
      simp only [List.flatMap_cons, List.flatMap_nil, List.append_nil, List.nil_append,
        List.map_cons, List.map_nil]
      exact flatMap_single (fun x => [x]) xs
  | cons l ls ih =>
      show (l.flatMap fun x => List.map (fun t => x :: t) (cartProd (ls ++ [xs])))
        = extend1 (l.flatMap fun x => List.map (fun t => x :: t) (cartProd ls)) xs
      rw [ih]
      simp only [extend1]
      simp [List.map_flatMap, List.flatMap_map, List.map_map, List.flatMap_assoc,
        Function.comp_def, List.cons_append]

theorem mem_extend1 {α : Type} {R : List (List α)} {xs : List α} {t : List α} :
    t ∈ extend1 R xs ↔ ∃ rt ∈ R, ∃ x ∈ xs, t = rt ++ [x] := by
  simp [extend1, eq_comm]

theorem zip_sub_append_prod {K : Type} [Field K] (rt ct : List K) (x y : K)
    (h : rt.length = ct.length) :
    (List.zipWith (fun a b => a - b) (rt ++ [x]) (ct ++ [y])).prod
      = (List.zipWith (fun a b => a - b) rt ct).prod * (x - y) := by
  rw [List.zipWith_append _ _ _ _ _ h, List.prod_append]
  simp

theorem kron_tupMat_outer {K : Type} [Field K] (n : ℕ) (R C : List (List K))
    (rs cs : List K) (hR : ∀ rt ∈ R, rt.length = n) (hC : ∀ ct ∈ C, ct.length = n) :
    kron (tupMat R C) (outerBy (fun a b => a - b) rs cs)
      = tupMat (extend1 R rs) (extend1 C cs) := by
  simp only [kron, tupMat, outerBy, extend1]
  simp only [List.map_flatMap, List.flatMap_map, List.map_map, Function.comp]
  apply List.flatMap_congr
  intro rt hrt
  apply List.map_congr_left
  intro x hx
  simp only [List.map_flatMap, List.flatMap_map, List.map_map, Function.comp]
  apply List.flatMap_congr
  intro ct hct
  apply List.map_congr_left
  intro y hy
  simp only [Function.comp_apply]
  rw [zip_sub_append_prod rt ct x y ((hR rt hrt).trans (hC ct hct).symm)]

theorem extend1_length_mem {α : Type} {R : List (List α)} {xs : List α} {n : ℕ}
    (hR : ∀ rt ∈ R, rt.length = n) :
    ∀ t ∈ extend1 R xs, t.length = n + 1 := by
  intro t ht
  rcases mem_extend1.mp ht with ⟨rt, hrt, x, hx, rfl⟩
  simp [hR rt hrt]

theorem foldl_kron_tupMat {K : Type} [Field K] (F G : ℕ → List K) :
    ∀ (idxs : List ℕ) (n : ℕ) (R C : List (List K)),
    (∀ rt ∈ R, rt.length = n) → (∀ ct ∈ C, ct.length = n) →
    idxs.foldl (fun acc i =>
        kron acc (outerBy (fun a b => a - b) (F i) (G i))) (tupMat R C)
      = tupMat (idxs.foldl (fun acc i => extend1 acc (F i)) R)
          (idxs.foldl (fun acc i => extend1 acc (G i)) C) := by
  intro idxs
  induction idxs with
  | nil => intro n R C hR hC; rfl
  | cons i idxs ih =>
      intro n R C hR hC
      simp only [List.foldl_cons]
      rw [kron_tupMat_outer n R C (F i) (G i) hR hC]
      exact ih (n + 1) _ _ (extend1_length_mem hR) (extend1_length_mem hC)

theorem outer_eq_tupMat {K : Type} [Field K] (rs cs : List K) :
    outerBy (fun a b => a - b) rs cs
      = tupMat (rs.map (fun x => [x])) (cs.map (fun y => [y])) := by
  simp [outerBy, tupMat, List.map_map, Function.comp_def]

theorem getD_map_lt {α β : Type} (f : α → β) (d : β) (e : α) :
    ∀ (l : List α) (i : ℕ), i < l.length → (l.map f).getD i d = f (l.getD i e) := by
  intro l
  induction l with
  | nil => intro i h; simp at h
  | cons a l ih =>
      intro i h
      cases i with
      | zero => rfl
      | succ j =>
          simp only [List.map_cons, List.getD_cons_succ]
          exact ih j (by simpa using h)

theorem getD_zipWith_lt {α β γ : Type} (f : α → β → γ) (da : α) (db : β) (dc : γ) :
    ∀ (a : List α) (b : List β) (i : ℕ), i < a.length → i < b.length →
      (List.zipWith f a b).getD i dc = f (a.getD i da) (b.getD i db) := by
  intro a
  induction a with
  | nil => intro b i h; simp at h
  | cons x a ih =>
      intro b i ha hb
      cases b with
      | nil => simp at hb
      | cons y b =>
          cases i with
          | zero => rfl
          | succ j =>
              simp only [List.zipWith_cons_cons, List.getD_cons_succ]
              exact ih b j (by simpa using ha) (by simpa using hb)

theorem cartProd_zipWith_map {α β : Type} :
    ∀ (fs : List (α → β)) (ls : List (List α)), fs.length = ls.length →
    cartProd (List.zipWith (fun f l => l.map f) fs ls)
      = (cartProd ls).map (fun t => List.zipWith (fun f x => f x) fs t) := by
  intro fs
  induction fs with
  | nil =>
      intro ls h
      cases ls with
      | nil => simp [cartProd]
      | cons l ls => simp at h
  | cons f fs ih =>
      intro ls h
      cases ls with
      | nil => simp at h
      | cons l ls =>
          simp only [List.zipWith_cons_cons, cartProd]
          rw [ih ls (by simpa using h)]
          simp [List.map_flatMap, List.flatMap_map, List.map_map, Function.comp_def]

theorem foldl_congr_mem {α β : Type} :
    ∀ (l : List α) (f g : β → α → β) (b : β),
      (∀ a ∈ l, ∀ x, f x a = g x a) → l.foldl f b = l.foldl g b := by
  intro l
  induction l with
  | nil => intro f g b _; rfl
  | cons a l ih =>
      intro f g b h
      simp only [List.foldl_cons]
      rw [h a (by simp)]
      exact ih f g _ (fun a2 ha2 => h a2 (by simp [ha2]))

theorem map_getD_range {α : Type} (d : α) :
    ∀ (l : List α), (List.range l.length).map (fun i => l.getD i d) = l := by
  intro l
  induction l with
  | nil => rfl
  | cons a l ih =>
      rw [List.length_cons, List.range_succ_eq_map]
      simp only [List.map_cons, List.getD_cons_zero, List.map_map]
      refine congrArg (a :: ·) ?_
      rw [show (fun i => (a :: l).getD i d) ∘ Nat.succ = fun i => l.getD i d from ?_]
      · exact ih
      · funext i; rfl

theorem map_getD_range'_tail {α : Type} (d : α) (l : List α) (k : ℕ)
    (h : l.length = k + 1) :
    (List.range' 1 k).map (fun i => l.getD i d) = l.tail := by
  cases l with
  | nil => simp at h
  | cons a l =>
      have hk : k = l.length := by simpa using h.symm
      subst hk
      rw [List.range'_eq_map_range]
      simp only [List.map_map, List.tail_cons]
      rw [show ((fun i => (a :: l).getD i d) ∘ fun i => 1 + i) = fun i => l.getD i d from ?_]
      · exact map_getD_range d l
      · funext i
        simp [Nat.add_comm 1 i]

theorem getD_zero_headD {α : Type} (l : List α) (d : α) : l.headD d = l.getD 0 d := by
  cases l <;> rfl

theorem cartProd_cons_foldl {α : Type} (x0 : List α) :
    ∀ (ls : List (List α)),
      cartProd (x0 :: ls) = ls.foldl extend1 (x0.map (fun x => [x])) := by
  intro ls
  induction ls using List.reverseRecOn with
  | nil => exact cartProd_singleton x0
  | append_singleton ls xs ih =>
      rw [show x0 :: (ls ++ [xs]) = (x0 :: ls) ++ [xs] from rfl]
      rw [cartProd_append_single, ih, List.foldl_append]
      simp

theorem cartProd_eq_foldl_getD {α : Type} (V : List (List α)) (n : ℕ)
    (hV : V.length = n + 1) :
    cartProd V = (List.range' 1 n).foldl (fun acc i => extend1 acc (V.getD i []))
      ((V.getD 0 []).map (fun x => [x])) := by
  cases V with
  | nil => simp at hV
  | cons v0 V =>
      have ht := map_getD_range'_tail ([] : List α) (v0 :: V) n hV
      simp only [List.tail_cons] at ht
      rw [cartProd_cons_foldl]
      conv_lhs => rw [← ht]
      rw [List.foldl_map]
      rfl

theorem loewnerDen_eq {K : Type} [Field K] (samples : Tensor K) (svs : List (List K))
    (itpl_part : List (List ℕ)) (hd : samples.shape.length = svs.length)
    (h0 : 0 < svs.length) (hip : itpl_part.length = svs.length) :
    loewnerDen samples svs itpl_part
      = tupMat (cartProd (List.zipWith sel svs (lsPartOf itpl_part svs)))
          (cartProd (List.zipWith sel svs itpl_part)) := by
  have hlsp : (lsPartOf itpl_part svs).length = svs.length := by
    simp [lsPartOf, List.length_zipWith, hip]
  have hVr : (List.zipWith sel svs (lsPartOf itpl_part svs)).length = svs.length := by
    simp [List.length_zipWith, hlsp]
  have hVc : (List.zipWith sel svs itpl_part).length = svs.length := by
    simp [List.length_zipWith, hip]
  have hsub : svs.length - 1 + 1 = svs.length := Nat.sub_add_cancel h0
  simp only [loewnerDen]
  rw [hd]
  rw [outer_eq_tupMat]
  rw [foldl_kron_tupMat
    (fun i => sel (svs.getD i []) ((lsPartOf itpl_part svs).getD i []))
    (fun i => sel (svs.getD i []) (itpl_part.getD i []))
    (List.range' 1 (svs.length - 1)) 1 _ _
    (by intro rt hrt; rcases List.mem_map.mp hrt with ⟨x, hx, rfl⟩; rfl)
    (by intro ct hct; rcases List.mem_map.mp hct with ⟨x, hx, rfl⟩; rfl)]
  rw [cartProd_eq_foldl_getD (List.zipWith sel svs (lsPartOf itpl_part svs))
    (svs.length - 1) (by rw [hVr, hsub])]
  rw [cartProd_eq_foldl_getD (List.zipWith sel svs itpl_part)
    (svs.length - 1) (by rw [hVc, hsub])]
  congr 1
  · rw [foldl_congr_mem _ _ (fun acc i => extend1 acc
      ((List.zipWith sel svs (lsPartOf itpl_part svs)).getD i [])) _ ?_]
    · congr 1
      rw [getD_zipWith_lt sel [] [] [] svs (lsPartOf itpl_part svs) 0 h0 (hlsp ▸ h0)]
    · intro i hi x
      have hi2 : i < svs.length := by
        rcases List.mem_range'_1.mp hi with ⟨_, h2⟩
        omega
      show extend1 x (sel (svs.getD i []) ((lsPartOf itpl_part svs).getD i []))
        = extend1 x ((List.zipWith sel svs (lsPartOf itpl_part svs)).getD i [])
      rw [getD_zipWith_lt sel [] [] [] svs (lsPartOf itpl_part svs) i hi2 (hlsp ▸ hi2)]
  · rw [foldl_congr_mem _ _ (fun acc i => extend1 acc
      ((List.zipWith sel svs itpl_part).getD i [])) _ ?_]
    · congr 1
      rw [getD_zipWith_lt sel [] [] [] svs itpl_part 0 h0 (hip ▸ h0)]
    · intro i hi x
      have hi2 : i < svs.length := by
        rcases List.mem_range'_1.mp hi with ⟨_, h2⟩
        omega
      show extend1 x (sel (svs.getD i []) (itpl_part.getD i []))
        = extend1 x ((List.zipWith sel svs itpl_part).getD i [])
      rw [getD_zipWith_lt sel [] [] [] svs itpl_part i hi2 (hip ▸ hi2)]

theorem outerBy_length {α K : Type} (f : α → α → K) (rs cs : List α) :
    (outerBy f rs cs).length = rs.length := by
  simp [outerBy]

theorem outerBy_row {α K : Type} (f : α → α → K) (rs cs : List α) (r : ℕ) (dα : α)
    (hr : r < rs.length) :
    (outerBy f rs cs).getD r [] = cs.map (f (rs.getD r dα)) := by
  unfold outerBy
  rw [getD_map_lt _ [] dα rs r hr]

theorem outerBy_entry {α K : Type} (f : α → α → K) (rs cs : List α) (r c : ℕ)
    (d0 : K) (dα : α) (hr : r < rs.length) (hc : c < cs.length) :
    ((outerBy f rs cs).getD r []).getD c d0 = f (rs.getD r dα) (cs.getD c dα) := by
  rw [outerBy_row f rs cs r dα hr, getD_map_lt _ d0 dα cs c hc]

theorem tupMat_length {K : Type} [Field K] (A B : List (List K)) :
    (tupMat A B).length = A.length := by
  simp [tupMat]

theorem tupMat_row {K : Type} [Field K] (A B : List (List K)) (r : ℕ)
    (hr : r < A.length) :
    (tupMat A B).getD r []
      = B.map (fun ct => (List.zipWith (fun a b => a - b) (A.getD r []) ct).prod) := by
  unfold tupMat
  rw [getD_map_lt _ [] [] A r hr]

theorem matDivE_length {K : Type} [Div K] (A B : Mat K) :
    (matDivE A B).length = min A.length B.length := by
  simp [matDivE, List.length_zipWith]

theorem matDivE_row {K : Type} [Div K] (A B : Mat K) (r : ℕ)
    (hA : r < A.length) (hB : r < B.length) :
    (matDivE A B).getD r []
      = List.zipWith (fun a b => a / b) (A.getD r []) (B.getD r []) :=
  getD_zipWith_lt _ [] [] [] A B r hA hB

theorem cartProd_zip_sel {K : Type} [Zero K] (svs : List (List K))
    (parts : List (List ℕ)) (h : svs.length = parts.length) :
    cartProd (List.zipWith sel svs parts)
      = (cartProd parts).map
          (fun t => List.zipWith (fun sv k => sv.getD k 0) svs t) := by
  have h1 : List.zipWith sel svs parts
      = List.zipWith (fun f l => l.map f)
          (svs.map (fun sv k => sv.getD k 0)) parts := by
    rw [List.zipWith_map_left]
    rfl
  rw [h1, cartProd_zipWith_map _ _ (by simpa using h)]
  apply List.map_congr_left
  intro t ht
  rw [List.zipWith_map_left]

theorem nd_loewner_spec {K : Type} [Field K] (samples : Tensor K)
    (svs : List (List K)) (itpl_part : List (List ℕ))
    (hd : samples.shape.length = svs.length) (h0 : 0 < svs.length)
    (hip : itpl_part.length = svs.length)
    (r c : ℕ) (hr : r < (cartProd (lsPartOf itpl_part svs)).length)
    (hc : c < (cartProd itpl_part).length) :
    (nd_loewner samples svs itpl_part).length
        = (cartProd (lsPartOf itpl_part svs)).length
    ∧ ((nd_loewner samples svs itpl_part).getD r []).length
        = (cartProd itpl_part).length
    ∧ ((nd_loewner samples svs itpl_part).getD r []).getD c 0
        = (samples.get ((cartProd (lsPartOf itpl_part svs)).getD r [])
            - samples.get ((cartProd itpl_part).getD c []))
          / diffProd svs ((cartProd (lsPartOf itpl_part svs)).getD r [])
              ((cartProd itpl_part).getD c []) := by
  have hlsp : (lsPartOf itpl_part svs).length = svs.length := by
    simp [lsPartOf, List.length_zipWith, hip]
  have hXlen : ((cartProd (lsPartOf itpl_part svs)).map
      (fun ix => samples.get ix)).length = (cartProd (lsPartOf itpl_part svs)).length := by
    simp
  have hYlen : ((cartProd itpl_part).map (fun ix => samples.get ix)).length
      = (cartProd itpl_part).length := by
    simp
  have hnum_len : (loewnerNum samples svs itpl_part).length
      = (cartProd (lsPartOf itpl_part svs)).length := by
    rw [loewnerNum, outerBy_length, hXlen]
  have hden_eq := loewnerDen_eq samples svs itpl_part hd h0 hip
  rw [cartProd_zip_sel svs (lsPartOf itpl_part svs) hlsp.symm,
      cartProd_zip_sel svs itpl_part hip.symm] at hden_eq
  have hden_len : (loewnerDen samples svs itpl_part).length
      = (cartProd (lsPartOf itpl_part svs)).length := by
    rw [hden_eq, tupMat_length]
    simp
  have hrnum : r < (loewnerNum samples svs itpl_part).length := by rw [hnum_len]; exact hr
  have hrden : r < (loewnerDen samples svs itpl_part).length := by rw [hden_len]; exact hr
  have hnum_row : (loewnerNum samples svs itpl_part).getD r []
      = ((cartProd itpl_part).map (fun ix => samples.get ix)).map
          (fun b => samples.get ((cartProd (lsPartOf itpl_part svs)).getD r []) - b) := by
    rw [loewnerNum, outerBy_row _ _ _ r 0 (by rw [hXlen]; exact hr)]
    rw [getD_map_lt _ 0 [] _ r hr]
  have hden_row : (loewnerDen samples svs itpl_part).getD r []
      = ((cartProd itpl_part).map
          (fun t => List.zipWith (fun sv k => sv.getD k 0) svs t)).map
          (fun ct => (List.zipWith (fun a b => a - b)
            (List.zipWith (fun sv k => sv.getD k 0) svs
              ((cartProd (lsPartOf itpl_part svs)).getD r [])) ct).prod) := by
    rw [hden_eq, tupMat_row _ _ r (by simpa using hr)]
    rw [getD_map_lt _ [] [] _ r hr]
  refine ⟨?_, ?_, ?_⟩
  · rw [nd_loewner, matDivE_length, hnum_len, hden_len, min_self]
  · rw [nd_loewner, matDivE_row _ _ r hrnum hrden, List.length_zipWith,
      hnum_row, hden_row]
    simp
  · rw [nd_loewner, matDivE_row _ _ r hrnum hrden]
    rw [getD_zipWith_lt _ 0 0 0 _ _ c
      (by rw [hnum_row]; simpa using hc) (by rw [hden_row]; simpa using hc)]
    rw [hnum_row, hden_row]
    simp only [List.map_map]
    rw [getD_map_lt _ 0 ([] : List ℕ) _ c hc]
    rw [getD_map_lt _ 0 ([] : List ℕ) _ c hc]
    rfl

/-! ## Barycentric-form factory (`make_bary_func`) and claim C4 machinery

`np.argmin` returns the first index attaining the minimum;
`removable_singularity_tol` enters squared (see the file header). -/

/-- `np.argmin` on a 1-D array of (squared) magnitudes: first index
attaining the minimum. -/
def npArgmin (l : List ℚ) : ℕ :=
  l.findIdx (fun x => decide (x = l.foldl min (l.headD 0)))

/-- The squared counterpart of the source default
`removable_singularity_tol = 1e-14`. -/
def removable_singularity_tolSq : ℚ := 1 / 10 ^ 28

/-- The accumulated denominator row `pd` of `bary_func`: for each variable,
the vector of differences to the interpolation nodes, replaced by a one-hot
selector when some difference falls below the singularity tolerance,
inverted elementwise otherwise, and Kronecker-accumulated. -/
def baryDVar (tolSq : ℚ) (a : Cx) (ns : List Cx) : List Cx :=
  let d := ns.map (fun nk => a - nk)
  let dz := d.filter (fun x => decide (Cx.absSq x < tolSq))
  if dz.length > 0 then oneHotList d.length (npArgmin (d.map Cx.absSq))
  else d.map (fun x => x⁻¹)

def baryDenomVec (itpl_nodes : List (List Cx)) (tolSq : ℚ) (args : List Cx) :
    List Cx :=
  (List.zip args itpl_nodes).foldl (fun pd p => kronRow pd (baryDVar tolSq p.1 p.2)) [1]

/-- `make_bary_func(itpl_nodes, itpl_vals, coefs)` evaluated at `args`:
`m = coefs.T * pd`, `num = tensordot(m, itpl_vals, 1)`,
`denom = inner(coefs.T, pd)`, result `num / denom`.  The value type `V` is
`Cx` for SISO data and a matrix type for MIMO data (numpy is
dtype-polymorphic here); division by the scalar `denom` is
multiplication by its inverse. -/
def make_bary_func {V : Type} [AddCommMonoid V] [Module Cx V]
    (itpl_nodes : List (List Cx)) (itpl_vals : List V) (coefs : List Cx)
    (tolSq : ℚ) (args : List Cx) : V :=
  let pd := baryDenomVec itpl_nodes tolSq args
  let m := List.zipWith (fun c p => c * p) coefs pd
  let num := (List.zipWith (fun c v => c • v) m itpl_vals).sum
  let denom := (List.zipWith (fun c p => c * p) coefs pd).sum
  denom⁻¹ • num

theorem length_oneHotList {K : Type} [Zero K] [One K] (n e : ℕ) :
    (oneHotList (K := K) n e).length = n := by
  simp [oneHotList]

theorem map_const_zero {α K : Type} [Zero K] :
    ∀ (l : List α), (l.map (fun _ => (0 : K))) = List.replicate l.length 0 := by
  intro l
  induction l with
  | nil => rfl
  | cons a l ih => simp [ih, List.replicate_succ]

theorem oneHotList_zero_cons {K : Type} [Zero K] [One K] (n : ℕ) :
    oneHotList (K := K) (n + 1) 0 = 1 :: List.replicate n 0 := by
  rw [oneHotList, List.range_succ_eq_map]
  simp only [List.map_cons, if_pos rfl, List.map_map]
  refine congrArg (1 :: ·) ?_
  rw [show ((fun k => if k = 0 then (1 : K) else 0) ∘ Nat.succ) = fun _ => (0 : K) from ?_]
  · rw [map_const_zero, List.length_range]
  · funext k; simp

theorem oneHotList_succ_cons {K : Type} [Zero K] [One K] (n e : ℕ) :
    oneHotList (K := K) (n + 1) (e + 1) = 0 :: oneHotList n e := by
  rw [oneHotList, List.range_succ_eq_map]
  simp only [List.map_cons, List.map_map]
  rw [if_neg (by omega)]
  refine congrArg (0 :: ·) ?_
  rw [oneHotList]
  apply List.map_congr_left
  intro k hk
  simp [Function.comp, Nat.succ_eq_add_one]

theorem kronRow_cons {K : Type} [Mul K] (x : K) (xs y : List K) :
    kronRow (x :: xs) y = y.map (fun b => x * b) ++ kronRow xs y := by
  simp [kronRow]

theorem kronRow_nil {K : Type} [Mul K] (y : List K) : kronRow [] y = [] := rfl

theorem kronRow_replicate_zero {K : Type} [MulZeroClass K] :
    ∀ (m : ℕ) (y : List K), kronRow (List.replicate m 0) y
      = List.replicate (m * y.length) 0 := by
  intro m
  induction m with
  | zero => intro y; simp [kronRow]
  | succ m ih =>
      intro y
      rw [List.replicate_succ, kronRow_cons, ih]
      rw [show (y.map (fun b => (0 : K) * b)) = List.replicate y.length 0 from ?_]
      · rw [← List.replicate_add]
        refine congrArg (fun t => List.replicate t (0 : K)) ?_
        ring
      · rw [show (fun b => (0 : K) * b) = fun _ => (0 : K) from ?_]
        · exact map_const_zero y
        · funext b; simp

theorem oneHot_append_lt {K : Type} [Zero K] [One K] (p q e : ℕ) (h : e < p) :
    oneHotList (K := K) (p + q) e = oneHotList p e ++ List.replicate q 0 := by
  rw [oneHotList, List.range_add, List.map_append, List.map_map]
  refine congrArg (oneHotList p e ++ ·) ?_
  rw [show ((fun k => if k = e then (1 : K) else 0) ∘ fun x => p + x) = fun _ => (0 : K) from ?_]
  · rw [map_const_zero, List.length_range]
  · funext k
    simp only [Function.comp_apply]
    rw [if_neg (by omega)]

theorem oneHot_append_ge {K : Type} [Zero K] [One K] (p q e : ℕ) (h : p ≤ e) :
    oneHotList (K := K) (p + q) e = List.replicate p 0 ++ oneHotList q (e - p) := by
  rw [oneHotList, List.range_add, List.map_append, List.map_map]
  congr 1
  · rw [show ((fun k => if k = e then (1 : K) else 0)) = fun k => if k = e then 1 else 0 from rfl]
    rw [show (List.map (fun k => if k = e then (1 : K) else 0) (List.range p))
        = List.map (fun _ => (0 : K)) (List.range p) from ?_]
    · rw [map_const_zero, List.length_range]
    · apply List.map_congr_left
      intro k hk
      rw [if_neg (by rcases List.mem_range.mp hk with h2; omega)]
  · rw [oneHotList]
    apply List.map_congr_left
    intro k hk
    simp only [Function.comp_apply]
    refine if_congr ?_ rfl rfl
    omega

theorem kronRow_oneHot {K : Type} [MulZeroOneClass K] :
    ∀ (m : ℕ) (a : ℕ) (n b : ℕ), a < m → b < n →
    kronRow (oneHotList (K := K) m a) (oneHotList n b)
      = oneHotList (m * n) (a * n + b) := by
  intro m
  induction m with
  | zero => intro a n b ha hb; omega
  | succ m ih =>
      intro a n b ha hb
      cases a with
      | zero =>
          rw [oneHotList_zero_cons, kronRow_cons, kronRow_replicate_zero]
          rw [show ((oneHotList (K := K) n b).map (fun x => 1 * x)) = oneHotList n b from ?_]
          · rw [length_oneHotList]
            rw [show (m + 1) * n = n + m * n by ring, show 0 * n + b = b by ring]
            rw [oneHot_append_lt n (m * n) b hb]
          · rw [show (fun x => (1 : K) * x) = fun x => x from ?_]
            · exact List.map_id _
            · funext x; simp
      | succ a2 =>
          rw [oneHotList_succ_cons, kronRow_cons, ih a2 n b (by omega) hb]
          rw [show ((oneHotList (K := K) n b).map (fun x => 0 * x))
              = List.replicate n 0 from ?_]
          · rw [show (m + 1) * n = n + m * n by ring]
            rw [show (a2 + 1) * n + b = n + (a2 * n + b) by ring]
            rw [oneHot_append_ge n (m * n) (n + (a2 * n + b)) (by omega)]
            simp
          · rw [show (fun x => (0 : K) * x) = fun _ => (0 : K) from ?_]
            · rw [map_const_zero, length_oneHotList]
            · funext x; simp

theorem absSq_pos {z : Cx} (h : z ≠ 0) : 0 < Cx.absSq z :=
  lt_of_le_of_ne (Cx.absSq_nonneg z) (fun h2 => h (Cx.absSq_eq_zero.mp h2.symm))

theorem foldl_min_le_init : ∀ (l : List ℚ) (a : ℚ), l.foldl min a ≤ a := by
  intro l
  induction l with
  | nil => intro a; exact le_refl a
  | cons x l ih =>
      intro a
      calc (x :: l).foldl min a = l.foldl min (min a x) := rfl
        _ ≤ min a x := ih (min a x)
        _ ≤ a := min_le_left a x

theorem foldl_min_le_mem : ∀ (l : List ℚ) (a x : ℚ), x ∈ l → l.foldl min a ≤ x := by
  intro l
  induction l with
  | nil => intro a x h; simp at h
  | cons y l ih =>
      intro a x h
      rcases List.mem_cons.mp h with h1 | h2
      · subst h1
        calc (x :: l).foldl min a = l.foldl min (min a x) := rfl
          _ ≤ min a x := foldl_min_le_init l (min a x)
          _ ≤ x := min_le_right a x
      · exact ih (min a y) x h2

theorem le_foldl_min : ∀ (l : List ℚ) (a c : ℚ), c ≤ a → (∀ x ∈ l, c ≤ x) →
    c ≤ l.foldl min a := by
  intro l
  induction l with
  | nil => intro a c h _; exact h
  | cons y l ih =>
      intro a c h hall
      exact ih (min a y) c (le_min h (hall y (by simp)))
        (fun x hx => hall x (by simp [hx]))

theorem findIdx_eq_of_first {α : Type} (p : α → Bool) (d : α) :
    ∀ (l : List α) (i : ℕ), i < l.length →
    (∀ j, j < i → p (l.getD j d) = false) → p (l.getD i d) = true →
    l.findIdx p = i := by
  intro l
  induction l with
  | nil => intro i hi; simp at hi
  | cons x l ih =>
      intro i hi hbefore hp
      cases i with
      | zero =>
          simp only [List.getD_cons_zero] at hp
          rw [List.findIdx_cons, hp]
          rfl
      | succ j =>
          have h0 : p x = false := hbefore 0 (by omega)
          rw [List.findIdx_cons, h0]
          simp only [cond_false]
          have := ih j (by simpa using hi)
            (fun j2 hj2 => by
              have := hbefore (j2 + 1) (by omega)
              simpa using this)
            (by simpa using hp)
          omega

theorem baryDVar_at_node (tolSq : ℚ) (htol : 0 < tolSq) (ns : List Cx) (k : ℕ)
    (hk : k < ns.length) (hnd : ns.Nodup) :
    baryDVar tolSq (ns.getD k 0) ns = oneHotList ns.length k := by
  have hmemk : ns.getD k 0 ∈ ns := by
    rw [List.getD_eq_getElem ns 0 hk]
    exact List.getElem_mem hk
  have hzero_mem : (0 : Cx) ∈ ns.map (fun nk => ns.getD k 0 - nk) :=
    List.mem_map.mpr ⟨ns.getD k 0, hmemk, sub_self _⟩
  have habs0 : Cx.absSq 0 = 0 := by simp [Cx.absSq, Cx.zero_def]
  have hfilter : (0 : Cx) ∈ (ns.map (fun nk => ns.getD k 0 - nk)).filter
      (fun x => decide (Cx.absSq x < tolSq)) := by
    apply List.mem_filter.mpr
    exact ⟨hzero_mem, by rw [habs0]; simpa using htol⟩
  have hlenpos : 0 < ((ns.map (fun nk => ns.getD k 0 - nk)).filter
      (fun x => decide (Cx.absSq x < tolSq))).length :=
    List.length_pos.mpr (List.ne_nil_of_mem hfilter)
  have hd_getD : ∀ i, i < ns.length →
      ((ns.map (fun nk => ns.getD k 0 - nk)).map Cx.absSq).getD i 0
        = Cx.absSq (ns.getD k 0 - ns.getD i 0) := by
    intro i hi
    rw [List.map_map, getD_map_lt _ 0 0 ns i hi]
    rfl
  have hne : ∀ i, i < ns.length → i ≠ k → ns.getD i 0 ≠ ns.getD k 0 := by
    intro i hi hik heq
    apply hik
    rw [List.getD_eq_getElem ns 0 hi, List.getD_eq_getElem ns 0 hk] at heq
    exact (List.Nodup.getElem_inj_iff hnd).mp heq
  have hpos : ∀ i, i < ns.length → i ≠ k →
      0 < ((ns.map (fun nk => ns.getD k 0 - nk)).map Cx.absSq).getD i 0 := by
    intro i hi hik
    rw [hd_getD i hi]
    exact absSq_pos (sub_ne_zero.mpr (fun h => hne i hi hik h.symm))
  have hzk : ((ns.map (fun nk => ns.getD k 0 - nk)).map Cx.absSq).getD k 0 = 0 := by
    rw [hd_getD k hk]
    simpa using habs0
  have hlen2 : ((ns.map (fun nk => ns.getD k 0 - nk)).map Cx.absSq).length = ns.length := by
    simp
  have hnonneg : ∀ x ∈ (ns.map (fun nk => ns.getD k 0 - nk)).map Cx.absSq, 0 ≤ x := by
    intro x hx
    rcases List.mem_map.mp hx with ⟨z, _, rfl⟩
    exact Cx.absSq_nonneg z
  have hmemk2 : (0 : ℚ) ∈ (ns.map (fun nk => ns.getD k 0 - nk)).map Cx.absSq :=
    habs0 ▸ List.mem_map_of_mem Cx.absSq hzero_mem
  have hmin : ((ns.map (fun nk => ns.getD k 0 - nk)).map Cx.absSq).foldl min
      (((ns.map (fun nk => ns.getD k 0 - nk)).map Cx.absSq).headD 0) = 0 := by
    apply le_antisymm
    · exact foldl_min_le_mem _ _ 0 hmemk2
    · apply le_foldl_min
      · rw [getD_zero_headD]
        cases hcase : (ns.map (fun nk => ns.getD k 0 - nk)).map Cx.absSq with
        | nil => simp
        | cons y t =>
            have hy : y ∈ (ns.map (fun nk => ns.getD k 0 - nk)).map Cx.absSq := by
              rw [hcase]; simp
            simpa [hcase] using hnonneg y hy
      · exact hnonneg
  have hargmin : npArgmin ((ns.map (fun nk => ns.getD k 0 - nk)).map Cx.absSq) = k := by
    rw [npArgmin]
    refine findIdx_eq_of_first _ 0 _ k ?_ ?_ ?_
    · rw [hlen2]; exact hk
    · intro j hj
      rw [hmin]
      simp only [decide_eq_false_iff_not]
      exact ne_of_gt (hpos j (by omega) (by omega))
    · rw [hmin, hzk]
      simp
  rw [baryDVar]
  simp only [if_pos hlenpos]
  rw [hargmin]
  simp

theorem baryDenomVec_fold (tolSq : ℚ) (htol : 0 < tolSq) :
    ∀ (nodes : List (List Cx)) (ks : List ℕ) (N E : ℕ), E < N →
    ks.length = nodes.length →
    (∀ i, i < nodes.length →
      ks.getD i 0 < (nodes.getD i []).length ∧ (nodes.getD i []).Nodup) →
    (List.zip (List.zipWith (fun ns k => ns.getD k 0) nodes ks) nodes).foldl
        (fun pd p => kronRow pd (baryDVar tolSq p.1 p.2)) (oneHotList N E)
      = oneHotList (N * (nodes.map List.length).prod)
          ((List.zip nodes ks).foldl (fun acc p => acc * p.1.length + p.2) E) := by
  intro nodes
  induction nodes with
  | nil =>
      intro ks N E hE _ _
      simp
  | cons ns rest ih =>
      intro ks N E hE hlen hcond
      cases ks with
      | nil => simp at hlen
      | cons k kr =>
          simp only [List.zipWith_cons_cons, List.zip_cons_cons, List.foldl_cons]
          have h0 := hcond 0 (by simp)
          simp only [List.getD_cons_zero] at h0
          rw [baryDVar_at_node tolSq htol ns k h0.1 h0.2]
          rw [kronRow_oneHot N E ns.length k hE h0.1]
          have hE2 : E * ns.length + k < N * ns.length := by
            have h1 : E + 1 ≤ N := hE
            calc E * ns.length + k < E * ns.length + ns.length := by omega
              _ = (E + 1) * ns.length := by ring
              _ ≤ N * ns.length := Nat.mul_le_mul_right _ h1
          rw [ih kr (N * ns.length) (E * ns.length + k) hE2 (by simpa using hlen)
            (fun i hi => by
              have := hcond (i + 1) (by simpa using Nat.succ_lt_succ hi)
              simpa using this)]
          refine congrArg₂ oneHotList ?_ rfl
          simp [List.map_cons, List.prod_cons]
          ring

theorem encode_lt_prod :
    ∀ (nodes : List (List Cx)) (ks : List ℕ) (E N : ℕ), E < N →
    ks.length = nodes.length →
    (∀ i, i < nodes.length → ks.getD i 0 < (nodes.getD i []).length) →
    (List.zip nodes ks).foldl (fun acc p => acc * p.1.length + p.2) E
      < N * (nodes.map List.length).prod := by
  intro nodes
  induction nodes with
  | nil =>
      intro ks E N hE _ _
      simpa using hE
  | cons ns rest ih =>
      intro ks E N hE hlen hcond
      cases ks with
      | nil => simp at hlen
      | cons k kr =>
          simp only [List.zip_cons_cons, List.foldl_cons]
          have h0 := hcond 0 (by simp)
          simp only [List.getD_cons_zero] at h0
          have hE2 : E * ns.length + k < N * ns.length := by
            have h1 : E + 1 ≤ N := hE
            calc E * ns.length + k < E * ns.length + ns.length := by omega
              _ = (E + 1) * ns.length := by ring
              _ ≤ N * ns.length := Nat.mul_le_mul_right _ h1
          have := ih kr (E * ns.length + k) (N * ns.length) hE2 (by simpa using hlen)
            (fun i hi => by
              have := hcond (i + 1) (by simpa using Nat.succ_lt_succ hi)
              simpa using this)
          calc (List.zip rest kr).foldl (fun acc p => acc * p.1.length + p.2)
                (E * ns.length + k)
              < N * ns.length * (rest.map List.length).prod := this
            _ = N * ((ns :: rest).map List.length).prod := by
                simp [List.map_cons, List.prod_cons]; ring

theorem sum_zipWith_mul_replicate_zero :
    ∀ (cs : List Cx) (n : ℕ),
    (List.zipWith (fun c p => c * p) cs (List.replicate n (0 : Cx))).sum = 0 := by
  intro cs
  induction cs with
  | nil => intro n; simp
  | cons c cs ih =>
      intro n
      cases n with
      | zero => simp
      | succ m =>
          rw [List.replicate_succ, List.zipWith_cons_cons, List.sum_cons, ih m]
          simp

theorem sum_zipWith_mul_oneHot :
    ∀ (coefs : List Cx) (N e : ℕ), e < N → coefs.length = N →
    (List.zipWith (fun c p => c * p) coefs (oneHotList N e)).sum
      = coefs.getD e 0 := by
  intro coefs
  induction coefs with
  | nil => intro N e he hlen; simp at hlen; omega
  | cons c cs ih =>
      intro N e he hlen
      cases N with
      | zero => omega
      | succ M =>
          cases e with
          | zero =>
              rw [oneHotList_zero_cons, List.zipWith_cons_cons, List.sum_cons,
                sum_zipWith_mul_replicate_zero]
              simp
          | succ f =>
              rw [oneHotList_succ_cons, List.zipWith_cons_cons, List.sum_cons,
                ih M f (by omega) (by simpa using hlen)]
              simp

theorem sum_zipWith_smul_zero {V : Type} [AddCommMonoid V] [Module Cx V] :
    ∀ (cs : List Cx) (n : ℕ) (vs : List V),
    (List.zipWith (fun c v => c • v)
      (List.zipWith (fun c p => c * p) cs (List.replicate n (0 : Cx))) vs).sum = 0 := by
  intro cs
  induction cs with
  | nil => intro n vs; simp
  | cons c cs ih =>
      intro n vs
      cases n with
      | zero => simp
      | succ m =>
          cases vs with
          | nil => simp
          | cons v vs =>
              rw [List.replicate_succ, List.zipWith_cons_cons, List.zipWith_cons_cons,
                List.sum_cons, ih m vs]
              simp

theorem sum_zipWith_smul_oneHot {V : Type} [AddCommMonoid V] [Module Cx V] :
    ∀ (coefs : List Cx) (vals : List V) (N e : ℕ), e < N →
    coefs.length = N → vals.length = N →
    (List.zipWith (fun c v => c • v)
        (List.zipWith (fun c p => c * p) coefs (oneHotList N e)) vals).sum
      = coefs.getD e 0 • vals.getD e 0 := by
  intro coefs
  induction coefs with
  | nil => intro vals N e he hlen _; simp at hlen; omega
  | cons c cs ih =>
      intro vals N e he hclen hvlen
      cases N with
      | zero => omega
      | succ M =>
          cases vals with
          | nil => simp at hvlen
          | cons v vs =>
              cases e with
              | zero =>
                  rw [oneHotList_zero_cons, List.zipWith_cons_cons,
                    List.zipWith_cons_cons, List.sum_cons, sum_zipWith_smul_zero]
                  simp
              | succ f =>
                  rw [oneHotList_succ_cons, List.zipWith_cons_cons,
                    List.zipWith_cons_cons, List.sum_cons,
                    ih vs M f (by omega) (by simpa using hclen) (by simpa using hvlen)]
                  simp

theorem make_bary_func_exact {V : Type} [AddCommMonoid V] [Module Cx V]
    (itpl_nodes : List (List Cx)) (itpl_vals : List V) (coefs : List Cx)
    (tolSq : ℚ) (htol : 0 < tolSq) (ks : List ℕ)
    (hklen : ks.length = itpl_nodes.length)
    (hcond : ∀ i, i < itpl_nodes.length →
      ks.getD i 0 < (itpl_nodes.getD i []).length ∧ (itpl_nodes.getD i []).Nodup)
    (hclen : coefs.length = (itpl_nodes.map List.length).prod)
    (hvlen : itpl_vals.length = (itpl_nodes.map List.length).prod)
    (E : ℕ)
    (hEdef : E = (List.zip itpl_nodes ks).foldl (fun acc p => acc * p.1.length + p.2) 0)
    (hc : coefs.getD E 0 ≠ 0) :
    make_bary_func itpl_nodes itpl_vals coefs tolSq
        (List.zipWith (fun ns k => ns.getD k 0) itpl_nodes ks)
      = itpl_vals.getD E 0 := by
  have hpd : baryDenomVec itpl_nodes tolSq
      (List.zipWith (fun ns k => ns.getD k 0) itpl_nodes ks)
      = oneHotList ((itpl_nodes.map List.length).prod) E := by
    rw [baryDenomVec]
    have h1 := baryDenomVec_fold tolSq htol itpl_nodes ks 1 0 (by omega) hklen hcond
    rw [show oneHotList (K := Cx) 1 0 = [1] from rfl] at h1
    rw [h1, one_mul, hEdef]
  have hE : E < (itpl_nodes.map List.length).prod := by
    rw [hEdef]
    have := encode_lt_prod itpl_nodes ks 0 1 (by omega) hklen
      (fun i hi => (hcond i hi).1)
    simpa using this
  rw [make_bary_func, hpd]
  rw [sum_zipWith_mul_oneHot coefs _ E hE hclen]
  rw [sum_zipWith_smul_oneHot coefs itpl_vals _ E hE hclen hvlen]
  exact inv_smul_smul₀ hc _

/-! ## The p-AAA reductor (`pAAAReductor.reduce`)

The loop is embedded for the SISO path (`samples.shape` has one entry per
variable): in the MIMO case the source first projects the sample tensor to
scalars and then runs the identical loop on the projection.

External LAPACK/numpy routines (`scipy.linalg.svd`, the derived null-space
dimension count `np.sum(S/S[0] < nsp_tol)`, and
`np.linalg.matrix_rank(·, tol=L_rk_tol)`) are library calls, not code of
this repository; they enter the embedding as an opaque `Oracle` and every
loop-level theorem is proved for an arbitrary oracle.

Python list objects are mutable and `reduce` aliases the caller-supplied
`itpl_part` (line `self.itpl_part = itpl_part`, no copy).  Partition-list
objects therefore live in an explicit heap `PHeap` (a list of cells,
addresses are indices); `List.set` at a cell address models in-place
mutation of that object.  The logger is modelled as an appended list of
tagged messages with their levels implicit in the tag.
-/

/-- The opaque numerical kernels used by `reduce` and `_post_processing`. -/
structure Oracle where
  svdCoefs : Mat Cx → List Cx
  nspDim : Mat Cx → ℕ
  rank1D : Mat Cx → ℕ

/-- The log messages `reduce` and `_post_processing` can emit.
`ppFailWarn` and `nonMinWarn` are warning-level; the others info-level. -/
inductive LogMsg
  | stepInfo
  | ppStartInfo
  | ppFailWarn
  | nonMinWarn
  | nspConvInfo
deriving DecidableEq, Repr

/-- Heap of python list objects holding interpolation partitions. -/
abbrev PHeap := List (List (List ℕ))

/-- The barycentric approximant carried across iterations: the constant
start value `np.mean(samples)`, or the data of `make_bary_func`. -/
inductive BaryRep
  | const (c : Cx)
  | rat (nodes : List (List Cx)) (vals : List Cx) (coefs : List Cx)
deriving DecidableEq, Repr

/-- Evaluate the current barycentric approximant at one grid point. -/
def BaryRep.eval : BaryRep → List Cx → Cx
  | BaryRep.const c, _ => c
  | BaryRep.rat n v cf, args => make_bary_func n v cf removable_singularity_tolSq args

/-- The reductor configuration fixed before the loop starts. -/
structure Cfg where
  svs : List (List Cx)
  samples : Tensor Cx
  relTolSq : ℚ
  maxItpl : List ℕ
  conjugate : Bool
  postProcess : Bool
  oracle : Oracle

/-- Mutable loop state. -/
structure LState where
  ph : PHeap
  itplAddr : ℕ
  coefs : List Cx
  bary : BaryRep
  log : List LogMsg
  j : ℕ
deriving DecidableEq

/-- `self.itpl_part`: the partition object the state points at. -/
def LState.itpl (st : LState) : List (List ℕ) := st.ph.getD st.itplAddr []

/-- `while any(len(i) < mi for i, mi in zip(self.itpl_part, max_itpl))`. -/
def whileCond (cfg : Cfg) (itpl : List (List ℕ)) : Bool :=
  (List.zip itpl cfg.maxItpl).any (fun p => decide (p.1.length < p.2))

/-- The per-variable zeroing index set: all indices once the variable has
reached its cap, the current interpolation partition otherwise. -/
def zeroIdx (cfg : Cfg) (itpl : List (List ℕ)) (i : ℕ) : List ℕ :=
  if (itpl.getD i []).length ≥ cfg.maxItpl.getD i 0 then
    List.range (cfg.samples.shape.getD i 0)
  else itpl.getD i []

/-- Squared absolute error of the current approximant at one grid point
(`np.abs(bary_func(*grid) - samples)`, squared). -/
def errSqAt (cfg : Cfg) (bary : BaryRep) (ix : List ℕ) : ℚ :=
  Cx.absSq (bary.eval (List.zipWith (fun sv k => sv.getD k 0) cfg.svs ix)
    - cfg.samples.get ix)

/-- The masked squared error: zero exactly on the block
`err_mat[np.ix_(*zero_idx)] = 0` (every coordinate in its zeroing set). -/
def maskedErrSq (cfg : Cfg) (itpl : List (List ℕ)) (bary : BaryRep) (ix : List ℕ) : ℚ :=
  if (List.range cfg.svs.length).all
      (fun i => (zeroIdx cfg itpl i).contains (ix.getD i 0)) then 0
  else errSqAt cfg bary ix

/-- All multi-indices of the sample grid, in C order. -/
def allIdx (cfg : Cfg) : List (List ℕ) := cartProd (cfg.samples.shape.map List.range)

/-- `err = np.max(err_mat)` (squared; error entries are nonnegative). -/
def errMax (cfg : Cfg) (itpl : List (List ℕ)) (bary : BaryRep) : ℚ :=
  ((allIdx cfg).map (maskedErrSq cfg itpl bary)).foldl max 0

/-- `np.unravel_index(err_mat.argmax(), err_mat.shape)`: the first grid
index in C order attaining the masked maximum. -/
def greedyIdx (cfg : Cfg) (itpl : List (List ℕ)) (bary : BaryRep) : List ℕ :=
  ((allIdx cfg).find?
    (fun ix => decide (maskedErrSq cfg itpl bary ix = errMax cfg itpl bary))).getD []

/-- One step of the greedy append loop (source lines 185-193) for variable
`i`: append the greedy index when it is new and the cap not reached; for
variable 0 with `conjugate` and a non-real location, also append the index
of the conjugate location (`np.where(svs[0] == conj_sample)[0][0]`;
`none` models the `IndexError` when the conjugate is absent). -/
def appendStep (cfg : Cfg) (g : List ℕ) (itpl : List (List ℕ)) (i : ℕ) :
    Option (List (List ℕ)) :=
  let pi2 := itpl.getD i []
  if ¬ pi2.contains (g.getD i 0) ∧ pi2.length < cfg.maxItpl.getD i 0 then
    let itpl2 := itpl.set i (pi2 ++ [g.getD i 0])
    if i = 0 ∧ cfg.conjugate = true
        ∧ ((cfg.svs.getD i []).getD (g.getD i 0) 0).im ≠ 0 then
      match (cfg.svs.getD 0 []).findIdx?
          (fun s => s = Cx.conj ((cfg.svs.getD i []).getD (g.getD i 0) 0)) with
      | some ci => some (itpl2.set i ((itpl2.getD i []) ++ [ci]))
      | none => none
    else some itpl2
  else some itpl

/-- The greedy append loop over all variables. -/
def appendLoop (cfg : Cfg) (g : List ℕ) :
    List ℕ → List (List ℕ) → Option (List (List ℕ))
  | [], itpl => some itpl
  | i :: rest, itpl =>
      match appendStep cfg g itpl i with
      | some itpl2 => appendLoop cfg g rest itpl2
      | none => none

/-- `np.argmax` on a list of naturals: first index attaining the maximum. -/
def npArgmaxNat (l : List ℕ) : ℕ :=
  l.findIdx (fun x => decide (x = l.foldl max 0))

/-- Python slice `l[0:stop]` for a possibly negative `stop`. -/
def pySlice0 {α : Type} (l : List α) (stop : ℤ) : List α :=
  if 0 ≤ stop then l.take stop.toNat else l.take (l.length - (-stop).toNat)

/-- `np.argmax([len(ip) for ip in itpl_part])`. -/
def ppMaxIdx (itpl : List (List ℕ)) : ℕ := npArgmaxNat (itpl.map List.length)

/-- The per-variable maximal numerical ranks estimated in
`_post_processing`: for the largest variable, `len - 1` (exploiting the
null-space structure); otherwise the maximum oracle rank of all 1-D
Loewner matrices obtained by freezing the other variables. -/
def ppMaxRks (O : Oracle) (samples : Tensor Cx) (svs : List (List Cx))
    (itpl : List (List ℕ)) : List ℤ :=
  (List.range svs.length).map (fun i =>
    if i = ppMaxIdx itpl then ((itpl.getD (ppMaxIdx itpl) []).length : ℤ) - 1
    else
      let shapes := samples.shape.eraseIdx i
      let mask := (List.range samples.shape.length).map (fun j => if j = i then 1 else 0)
      (cartProd (shapes.map List.range)).foldl (fun mx idc =>
        max mx ((O.rank1D (nd_loewner (sliceTensor samples mask idc)
          [svs.getD i []] [itpl.getD i []]) : ℤ))) 0)

/-- `np.prod([len(itpl_part[k]) - max_rks[k] for k in ...])`. -/
def ppDenom (O : Oracle) (samples : Tensor Cx) (svs : List (List Cx))
    (itpl : List (List ℕ)) : ℤ :=
  ((List.range svs.length).map
    (fun k => ((itpl.getD k []).length : ℤ)
      - (ppMaxRks O samples svs itpl).getD k 0)).prod

/-- `_post_processing(samples, svs, itpl_part, d_nsp, L_rk_tol)`: estimate
per-variable maximal ranks of 1-D Loewner matrices, back-solve the rank of
the largest variable from the null-space dimension, and truncate the
partition (in place, in the heap cell) before re-solving; returns the heap
together with `some (coefs, partition-object address)` on success and
`none` (the `(None, None)` sentinel) when the back-solve is inconsistent,
in which case the heap cell is untouched. -/
def _post_processing (O : Oracle) (samples : Tensor Cx) (svs : List (List Cx))
    (ph : PHeap) (addr : ℕ) (d_nsp : ℕ) : PHeap × Option (List Cx × ℕ) :=
  let itpl := ph.getD addr []
  let max_idx := ppMaxIdx itpl
  let max_rks := ppMaxRks O samples svs itpl
  let denom := ppDenom O samples svs itpl
  if denom = 0 ∨ (d_nsp : ℤ) % denom ≠ 0 then (ph, none)
  else
    let q : ℤ := (d_nsp : ℤ) / denom
    let max_rks2 := max_rks.set max_idx (((itpl.getD max_idx []).length : ℤ) - q)
    let itpl2 := (List.range svs.length).map
      (fun i => pySlice0 (itpl.getD i []) (max_rks2.getD i 0 + 1))
    let ph2 := ph.set addr itpl2
    let L := full_nd_loewner samples svs itpl2
    (ph2, some (O.svdCoefs L, addr))

/-- Result of one execution of the while-loop body. -/
inductive StepRes
  | cont (st : LState)
  | convBrk (st : LState)
  | nspBrk (st : LState)
  | err
deriving DecidableEq

/-- `VH[:, -1:]` of the SVD of the full Loewner matrix of the current
partition (source lines 196-200, through the oracle). -/
def solveCoefs (cfg : Cfg) (itpl2 : List (List ℕ)) : List Cx :=
  cfg.oracle.svdCoefs (full_nd_loewner cfg.samples cfg.svs itpl2)

/-- `d_nsp = np.sum(S/S[0] < nsp_tol)` (source line 203, through the
oracle). -/
def solveDnsp (cfg : Cfg) (itpl2 : List (List ℕ)) : ℕ :=
  cfg.oracle.nspDim (full_nd_loewner cfg.samples cfg.svs itpl2)

/-- The post-processing dispatch (source lines 202-213): when the null
space is non-trivial, either run `_post_processing` (adopting its result
on success, warning and keeping the freshly computed over-determined
coefficients and partition on failure), or only warn.  Returns (heap,
coefficients, partition address, emitted log). -/
def ppPhase (cfg : Cfg) (ph2 : PHeap) (addr : ℕ) (itpl2 : List (List ℕ)) :
    PHeap × List Cx × ℕ × List LogMsg :=
  let coefs := solveCoefs cfg itpl2
  let d_nsp := solveDnsp cfg itpl2
  if d_nsp > 1 then
    if cfg.postProcess = true then
      match _post_processing cfg.oracle cfg.samples cfg.svs ph2 addr d_nsp with
      | (ph3, some pr) => (ph3, pr.1, pr.2, [LogMsg.ppStartInfo])
      | (ph3, none) => (ph3, coefs, addr, [LogMsg.ppStartInfo, LogMsg.ppFailWarn])
    else (ph2, coefs, addr, [LogMsg.nonMinWarn])
  else (ph2, coefs, addr, [])

/-- Lines 195-219 of the source after the greedy append produced `itpl2`:
solve, post-process, and rebuild the barycentric form from the (possibly
post-processed) partition. -/
def rebuildState (cfg : Cfg) (st1 : LState) (itpl2 : List (List ℕ)) : LState :=
  let pp := ppPhase cfg (st1.ph.set st1.itplAddr itpl2) st1.itplAddr itpl2
  let ph3 := pp.1
  let coefs2 := pp.2.1
  let addr2 := ((pp.2).2).1
  let log2 := ((pp.2).2).2
  let itpl3 := ph3.getD addr2 []
  let nodes := List.zipWith (fun sv p => sel sv p) cfg.svs itpl3
  let vals := (cartProd itpl3).map (fun ix => cfg.samples.get ix)
  { ph := ph3, itplAddr := addr2, coefs := coefs2,
    bary := BaryRep.rat nodes vals coefs2,
    log := st1.log ++ log2, j := st1.j }

/-- One execution of the body of the greedy while-loop of `reduce`
(source lines 160-223), phase by phase: masked error and convergence
check, greedy append, Loewner matrix and SVD oracle, optional
post-processing, barycentric rebuild, null-space break. -/
def loopBody (cfg : Cfg) (st : LState) : StepRes :=
  let st1 : LState := { st with log := st.log ++ [LogMsg.stepInfo], j := st.j + 1 }
  if errMax cfg st.itpl st.bary ≤ cfg.relTolSq then StepRes.convBrk st1
  else
    match appendLoop cfg (greedyIdx cfg st.itpl st.bary)
        (List.range cfg.svs.length) st.itpl with
    | none => StepRes.err
    | some itpl2 =>
      let st2 := rebuildState cfg st1 itpl2
      if cfg.postProcess = true ∧ solveDnsp cfg itpl2 ≥ 1 then
        StepRes.nspBrk { st2 with log := st2.log ++ [LogMsg.nspConvInfo] }
      else StepRes.cont st2

/-- Outcome of running the loop to completion. -/
inductive LoopOut
  | done (st : LState)
  | errOut
deriving DecidableEq

/-- Fuel-indexed runner for the while-loop; `none` means the fuel ran out
(the termination theorem shows a concrete sufficient fuel). -/
def loopGo (cfg : Cfg) : ℕ → LState → Option LoopOut
  | 0, _ => none
  | fuel + 1, st =>
      if whileCond cfg st.itpl then
        match loopBody cfg st with
        | StepRes.cont st2 => loopGo cfg fuel st2
        | StepRes.convBrk st2 => some (LoopOut.done st2)
        | StepRes.nspBrk st2 => some (LoopOut.done st2)
        | StepRes.err => some LoopOut.errOut
      else some (LoopOut.done st)

/-- One row slice `samples[i]` of a tensor, as flat data (row-major). -/
def rowSlice (t : Tensor Cx) (i : ℕ) : List Cx :=
  let r := (t.shape.drop 1).prod
  (t.data.drop (i * r)).take r

/-- The complex-conjugate pre-processing of `reduce` (source lines
102-112): for every variable-0 location whose conjugate is not among the
variable-0 locations, append the conjugate location and the conjugated
sample row (`np.append` / `np.vstack` build new arrays). -/
def conjAugment (svs0 : List Cx) (samples : Tensor Cx) : List Cx × Tensor Cx :=
  let conjIdxs := (List.range svs0.length).filter
    (fun i => ¬ svs0.contains (Cx.conj (svs0.getD i 0)))
  let sConj := conjIdxs.map (fun i => Cx.conj (svs0.getD i 0))
  if sConj = [] then (svs0, samples)
  else
    (svs0 ++ sConj,
      { shape := (samples.shape.getD 0 0 + conjIdxs.length) :: samples.shape.drop 1
        data := samples.data
          ++ conjIdxs.flatMap (fun i => (rowSlice samples i).map Cx.conj) })

/-- Sufficient fuel for the greedy loop (see the termination theorem). -/
def fuelBound (cfg : Cfg) : ℕ := (cfg.maxItpl.map (fun m => m + 2)).sum + 1

/-- The observable result of `reduce()`: the partition heap after the
call, the address `self.itpl_part` holds, the log, and the data of the
returned barycentric transfer function (`none` models the `NameError`
raised at the final `make_bary_func` call when the loop body never ran
a full iteration, so `itpl_nodes` was never bound). -/
structure RedOut where
  ph : PHeap
  itplAddr : ℕ
  log : List LogMsg
  rom : Option (List (List Cx) × List Cx × List Cx)
  ok : Bool
deriving DecidableEq

/-- `np.max(np.abs(samples))`, squared. -/
def maxAbsSqData (t : Tensor Cx) : ℚ := (t.data.map Cx.absSq).foldl max 0

/-- The returned transfer-function data, read off the final approximant:
`none` models the `NameError` at the final `make_bary_func` call when the
loop never bound `itpl_nodes`. -/
def romOf : BaryRep → Option (List (List Cx) × List Cx × List Cx)
  | BaryRep.const _ => none
  | BaryRep.rat n v c => some (n, v, c)

/-- The conjugate-augmented sampling values and samples used by the loop:
`svs[0] = np.append(svs[0], s_conj_list)` rebinds entry 0 of the copied
list; nothing changes when `conjugate` is off. -/
def augmentIf (conjugate : Bool) (sampling_values : List (List Cx))
    (samplesIn : Tensor Cx) : List (List Cx) × Tensor Cx :=
  let aug := if conjugate then conjAugment (sampling_values.getD 0 []) samplesIn
    else (sampling_values.getD 0 [], samplesIn)
  (sampling_values.set 0 aug.1, aug.2)

/-- The loop configuration `reduce` fixes before the first iteration:
augmented data, relative tolerance `rel_tol = tol * max_samples` (squared
here), and interpolation caps defaulting to `len(svs[i]) - 1`. -/
def mkCfg (sampling_values : List (List Cx)) (samplesIn : Tensor Cx)
    (conjugate postProcess : Bool) (O : Oracle) (tol : ℚ)
    (maxItplArg : Option (List ℕ)) : Cfg :=
  let sv := augmentIf conjugate sampling_values samplesIn
  { svs := sv.1, samples := sv.2,
    relTolSq := tol ^ 2 * maxAbsSqData sv.2,
    maxItpl := match maxItplArg with
      | none => sv.1.map (fun s => s.length - 1)
      | some m => m,
    conjugate := conjugate, postProcess := postProcess, oracle := O }

/-- `self.itpl_part = [[] for _ in range(num_vars)]` allocates a fresh
partition object; `self.itpl_part = itpl_part` adopts the caller's object
without copying. -/
def allocItpl (ph : PHeap) (itplArg : Option ℕ) (numVars : ℕ) : PHeap × ℕ :=
  match itplArg with
  | none => (ph ++ [List.replicate numVars ([] : List ℕ)], ph.length)
  | some a => (ph, a)

/-- The state before the first iteration: the constant approximant
`np.mean(samples)` and an iteration counter of zero. -/
def initState (ph1 : PHeap) (addr : ℕ) (samples : Tensor Cx) : LState :=
  { ph := ph1, itplAddr := addr, coefs := [],
    bary := BaryRep.const (samples.data.sum / (Cx.ofRat (samples.data.length : ℚ))),
    log := [], j := 0 }

/-- `pAAAReductor.reduce(tol, itpl_part, max_itpl)` on the SISO path.
`sampling_values`/`samplesIn` are the reductor fields (read through the
array heap in `reduceHeap` below); `ph` is the partition-object heap and
`itplArg` the address of the caller-supplied partition object, if any.
Magnitudes are squared: `relTolSq = tol² · max |samples|²`.  Returns
`none` only on fuel exhaustion, which the termination theorem rules
out. -/
def reduceCore (sampling_values : List (List Cx)) (samplesIn : Tensor Cx)
    (conjugate postProcess : Bool) (O : Oracle) (tol : ℚ)
    (ph : PHeap) (itplArg : Option ℕ) (maxItplArg : Option (List ℕ)) :
    Option RedOut :=
  let cfg := mkCfg sampling_values samplesIn conjugate postProcess O tol maxItplArg
  let alloc := allocItpl ph itplArg cfg.svs.length
  let st0 := initState alloc.1 alloc.2 cfg.samples
  match loopGo cfg (fuelBound cfg) st0 with
  | none => none
  | some LoopOut.errOut =>
      some
        { ph := st0.ph, itplAddr := st0.itplAddr, log := st0.log,
          rom := none, ok := false }
  | some (LoopOut.done stF) =>
      some
        { ph := stF.ph, itplAddr := stF.itplAddr, log := stF.log,
          rom := romOf stF.bary, ok := true }

theorem contains_iff_mem {α : Type} [BEq α] [LawfulBEq α] (l : List α) (a : α) :
    l.contains a = true ↔ a ∈ l := List.elem_iff

theorem getD_set_self {α : Type} (d : α) :
    ∀ (l : List α) (i : ℕ) (x : α), i < l.length → (l.set i x).getD i d = x := by
  intro l
  induction l with
  | nil => intro i x h; simp at h
  | cons a l ih =>
      intro i x h
      cases i with
      | zero => rfl
      | succ j => exact ih j x (by simpa using h)

theorem getD_set_other {α : Type} (d : α) :
    ∀ (l : List α) (i j : ℕ) (x : α), i ≠ j → (l.set i x).getD j d = l.getD j d := by
  intro l
  induction l with
  | nil => intro i j x h; simp
  | cons a l ih =>
      intro i j x h
      cases i with
      | zero =>
          cases j with
          | zero => omega
          | succ j2 => rfl
      | succ i2 =>
          cases j with
          | zero => rfl
          | succ j2 => exact ih i2 j2 x (by omega)

theorem mem_cartProd {α : Type} (d : α) :
    ∀ (ls : List (List α)) (t : List α), t ∈ cartProd ls →
      t.length = ls.length ∧ ∀ j, j < ls.length → t.getD j d ∈ ls.getD j [] := by
  intro ls
  induction ls with
  | nil =>
      intro t ht
      simp [cartProd] at ht
      subst ht
      exact ⟨rfl, fun j hj => by simp at hj⟩
  | cons l ls ih =>
      intro t ht
      simp only [cartProd, List.mem_flatMap, List.mem_map] at ht
      rcases ht with ⟨x, hx, t2, ht2, rfl⟩
      rcases ih t2 ht2 with ⟨hlen, hmem⟩
      refine ⟨by simp [hlen], ?_⟩
      intro j hj
      cases j with
      | zero => simpa using hx
      | succ j2 =>
          simp only [List.getD_cons_succ]
          exact hmem j2 (by simpa using hj)

theorem foldl_max_le_acc : ∀ (l : List ℚ) (a : ℚ), a ≤ l.foldl max a := by
  intro l
  induction l with
  | nil => intro a; exact le_refl a
  | cons x l ih =>
      intro a
      calc a ≤ max a x := le_max_left a x
        _ ≤ l.foldl max (max a x) := ih (max a x)

theorem foldl_max_attained : ∀ (l : List ℚ) (a : ℚ), l.foldl max a = a ∨ l.foldl max a ∈ l := by
  intro l
  induction l with
  | nil => intro a; exact Or.inl rfl
  | cons x l ih =>
      intro a
      rcases ih (max a x) with h | h
      · rcases le_or_lt x a with hxa | hax
        · left
          calc (x :: l).foldl max a = l.foldl max (max a x) := rfl
            _ = max a x := h
            _ = a := max_eq_left hxa
        · right
          have : (x :: l).foldl max a = x := by
            calc (x :: l).foldl max a = l.foldl max (max a x) := rfl
              _ = max a x := h
              _ = x := max_eq_right (le_of_lt hax)
          rw [this]
          simp
      · right
        simp only [List.mem_cons]
        right
        exact h

theorem sum_lt_sum_of_mem {ι : Type} (f g : ι → ℕ) :
    ∀ (l : List ι), (∀ i ∈ l, f i ≤ g i) → ∀ i0 ∈ l, f i0 < g i0 →
    (l.map f).sum < (l.map g).sum := by
  intro l
  induction l with
  | nil => intro _ i0 h; simp at h
  | cons a l ih =>
      intro hle i0 hi0 hlt
      simp only [List.map_cons, List.sum_cons]
      rcases List.mem_cons.mp hi0 with rfl | hmem
      · have h2 : (l.map f).sum ≤ (l.map g).sum :=
          List.sum_le_sum (fun i hi => hle i (by simp [hi]))
        omega
      · have h1 : f a ≤ g a := hle a (by simp)
        have h2 := ih (fun i hi => hle i (by simp [hi])) i0 hmem hlt
        omega

/-- One summand of the loop-progress gauge. -/
def loopGaugeTerm (cfg : Cfg) (itpl : List (List ℕ)) (i : ℕ) : ℕ :=
  min (itpl.getD i []).length (cfg.maxItpl.getD i 0 + 2)

/-- Progress gauge of the greedy loop: capped total partition size. -/
def loopGauge (cfg : Cfg) (itpl : List (List ℕ)) : ℕ :=
  ((List.range cfg.maxItpl.length).map (loopGaugeTerm cfg itpl)).sum

theorem loopGauge_le (cfg : Cfg) (itpl : List (List ℕ)) :
    loopGauge cfg itpl ≤ (cfg.maxItpl.map (fun m => m + 2)).sum := by
  rw [loopGauge]
  have h1 : (cfg.maxItpl.map (fun m => m + 2)).sum
      = ((List.range cfg.maxItpl.length).map
          (fun i => cfg.maxItpl.getD i 0 + 2)).sum := by
    refine congrArg List.sum ?_
    rw [show (fun i => cfg.maxItpl.getD i 0 + 2)
        = (fun m => m + 2) ∘ (fun i => cfg.maxItpl.getD i 0) from rfl]
    rw [← List.map_map, map_getD_range 0 cfg.maxItpl]
  rw [h1]
  exact List.sum_le_sum (fun i hi => min_le_right _ _)

theorem set_oob {α : Type} : ∀ (l : List α) (i : ℕ) (x : α), l.length ≤ i → l.set i x = l := by
  intro l
  induction l with
  | nil => intro i x _; rfl
  | cons a l ih =>
      intro i x h
      cases i with
      | zero => simp at h
      | succ j => simp only [List.set_cons_succ]; rw [ih j x (by simpa using h)]

theorem appendStep_skip (cfg : Cfg) (g : List ℕ) (itpl : List (List ℕ)) (i : ℕ)
    (h : ¬ (¬ (itpl.getD i []).contains (g.getD i 0) = true
      ∧ (itpl.getD i []).length < cfg.maxItpl.getD i 0)) :
    appendStep cfg g itpl i = some itpl := by
  simp only [appendStep]
  rw [if_neg h]

theorem appendStep_single (cfg : Cfg) (g : List ℕ) (itpl : List (List ℕ)) (i : ℕ)
    (h1 : ¬ (itpl.getD i []).contains (g.getD i 0) = true)
    (h2 : (itpl.getD i []).length < cfg.maxItpl.getD i 0)
    (h3 : ¬ (i = 0 ∧ cfg.conjugate = true
      ∧ ((cfg.svs.getD i []).getD (g.getD i 0) 0).im ≠ 0)) :
    appendStep cfg g itpl i
      = some (itpl.set i ((itpl.getD i []) ++ [g.getD i 0])) := by
  simp only [appendStep]
  rw [if_pos ⟨h1, h2⟩, if_neg h3]

theorem appendStep_conj (cfg : Cfg) (g : List ℕ) (itpl : List (List ℕ)) (i : ℕ)
    (h1 : ¬ (itpl.getD i []).contains (g.getD i 0) = true)
    (h2 : (itpl.getD i []).length < cfg.maxItpl.getD i 0)
    (h3 : i = 0 ∧ cfg.conjugate = true
      ∧ ((cfg.svs.getD i []).getD (g.getD i 0) 0).im ≠ 0)
    (ci : ℕ)
    (hfind : (cfg.svs.getD 0 []).findIdx?
      (fun s => decide (s = Cx.conj ((cfg.svs.getD i []).getD (g.getD i 0) 0))) = some ci)
    (hi : i < itpl.length) :
    appendStep cfg g itpl i
      = some (itpl.set i ((itpl.getD i []) ++ [g.getD i 0, ci])) := by
  simp only [appendStep]
  rw [if_pos ⟨h1, h2⟩, if_pos h3, hfind]
  rw [getD_set_self [] itpl i _ hi]
  simp only [List.set_set, List.append_assoc]
  rfl

theorem appendStep_conj_err (cfg : Cfg) (g : List ℕ) (itpl : List (List ℕ)) (i : ℕ)
    (h1 : ¬ (itpl.getD i []).contains (g.getD i 0) = true)
    (h2 : (itpl.getD i []).length < cfg.maxItpl.getD i 0)
    (h3 : i = 0 ∧ cfg.conjugate = true
      ∧ ((cfg.svs.getD i []).getD (g.getD i 0) 0).im ≠ 0)
    (hfind : (cfg.svs.getD 0 []).findIdx?
      (fun s => decide (s = Cx.conj ((cfg.svs.getD i []).getD (g.getD i 0) 0))) = none) :
    appendStep cfg g itpl i = none := by
  simp only [appendStep]
  rw [if_pos ⟨h1, h2⟩, if_pos h3, hfind]

theorem appendStep_some_analysis (cfg : Cfg) (g : List ℕ) (itpl : List (List ℕ))
    (i : ℕ) (itpl2 : List (List ℕ)) (h : appendStep cfg g itpl i = some itpl2) :
    itpl2.length = itpl.length
    ∧ (∀ j, j ≠ i → itpl2.getD j [] = itpl.getD j [])
    ∧ (itpl.getD i []).length ≤ (itpl2.getD i []).length
    ∧ (itpl2.getD i []).length ≤ max (itpl.getD i []).length (cfg.maxItpl.getD i 0 + 1)
    ∧ (¬ (i = 0 ∧ cfg.conjugate = true) →
        (itpl2.getD i []).length ≤ max (itpl.getD i []).length (cfg.maxItpl.getD i 0)) := by
  by_cases hi : i < itpl.length
  case neg =>
      have hoob : ∀ (x : List ℕ), itpl.set i x = itpl :=
        fun x => set_oob itpl i x (by omega)
      simp only [appendStep, hoob] at h
      split_ifs at h with hc h3
      · rcases hfind : (cfg.svs.getD 0 []).findIdx?
            (fun s => decide (s = Cx.conj ((cfg.svs.getD i []).getD (g.getD i 0) 0))) with _ | ci
        all_goals rw [hfind] at h
        · simp at h
        · simp only [Option.some.injEq] at h
          subst h
          exact ⟨rfl, fun j _ => rfl, le_refl _, le_max_left _ _, fun _ => le_max_left _ _⟩
      · simp only [Option.some.injEq] at h
        subst h
        exact ⟨rfl, fun j _ => rfl, le_refl _, le_max_left _ _, fun _ => le_max_left _ _⟩
      · simp only [Option.some.injEq] at h
        subst h
        exact ⟨rfl, fun j _ => rfl, le_refl _, le_max_left _ _, fun _ => le_max_left _ _⟩
  case pos =>
      simp only [appendStep] at h
      split_ifs at h with hc h3
      · rcases hfind : (cfg.svs.getD 0 []).findIdx?
            (fun s => decide (s = Cx.conj ((cfg.svs.getD i []).getD (g.getD i 0) 0))) with _ | ci
        all_goals rw [hfind] at h
        · simp at h
        · simp only [Option.some.injEq] at h
          subst h
          have hset1 : (itpl.set i (itpl.getD i [] ++ [g.getD i 0])).getD i []
              = itpl.getD i [] ++ [g.getD i 0] := getD_set_self [] itpl i _ hi
          refine ⟨by simp [List.length_set], ?_, ?_, ?_, ?_⟩
          · intro j hj
            rw [getD_set_other [] _ i j _ (fun he => hj he.symm),
              getD_set_other [] itpl i j _ (fun he => hj he.symm)]
          · rw [getD_set_self [] _ i _ (by simpa [List.length_set] using hi), hset1]
            simp
          · rw [getD_set_self [] _ i _ (by simpa [List.length_set] using hi), hset1]
            simp only [List.length_append, List.length_cons, List.length_nil]
            have hlt := hc.2
            omega
          · intro hnc
            exact absurd ⟨h3.1, h3.2.1⟩ hnc
      · simp only [Option.some.injEq] at h
        subst h
        have hset1 : (itpl.set i (itpl.getD i [] ++ [g.getD i 0])).getD i []
            = itpl.getD i [] ++ [g.getD i 0] := getD_set_self [] itpl i _ hi
        refine ⟨by simp [List.length_set], ?_, ?_, ?_, ?_⟩
        · intro j hj
          rw [getD_set_other [] itpl i j _ (fun he => hj he.symm)]
        · rw [hset1]; simp
        · rw [hset1]
          simp only [List.length_append, List.length_cons, List.length_nil]
          have hlt := hc.2
          omega
        · intro _
          rw [hset1]
          simp only [List.length_append, List.length_cons, List.length_nil]
          omega
      · simp only [Option.some.injEq] at h
        subst h
        exact ⟨rfl, fun j _ => rfl, le_refl _, le_max_left _ _, fun _ => le_max_left _ _⟩

theorem appendStep_grows (cfg : Cfg) (g : List ℕ) (itpl : List (List ℕ)) (i : ℕ)
    (itpl2 : List (List ℕ)) (h : appendStep cfg g itpl i = some itpl2)
    (hi : i < itpl.length)
    (h1 : ¬ (itpl.getD i []).contains (g.getD i 0) = true)
    (h2 : (itpl.getD i []).length < cfg.maxItpl.getD i 0) :
    (itpl.getD i []).length < (itpl2.getD i []).length := by
  simp only [appendStep] at h
  rw [if_pos ⟨h1, h2⟩] at h
  split_ifs at h with h3
  · rcases hfind : (cfg.svs.getD 0 []).findIdx?
        (fun s => decide (s = Cx.conj ((cfg.svs.getD i []).getD (g.getD i 0) 0))) with _ | ci
    all_goals rw [hfind] at h
    · simp at h
    · simp only [Option.some.injEq] at h
      subst h
      rw [getD_set_self [] _ i _ (by simpa [List.length_set] using hi),
        getD_set_self [] itpl i _ hi]
      simp
  · simp only [Option.some.injEq] at h
    subst h
    rw [getD_set_self [] itpl i _ hi]
    simp

theorem appendLoop_analysis (cfg : Cfg) (g : List ℕ) :
    ∀ (idxs : List ℕ) (itpl itpl2 : List (List ℕ)),
    appendLoop cfg g idxs itpl = some itpl2 →
    itpl2.length = itpl.length
    ∧ (∀ j, (itpl.getD j []).length ≤ (itpl2.getD j []).length)
    ∧ (∀ j, j ∉ idxs → itpl2.getD j [] = itpl.getD j [])
    ∧ (∀ j, (itpl2.getD j []).length
        ≤ max (itpl.getD j []).length (cfg.maxItpl.getD j 0 + 1))
    ∧ (∀ j, ¬ (j = 0 ∧ cfg.conjugate = true) →
        (itpl2.getD j []).length ≤ max (itpl.getD j []).length (cfg.maxItpl.getD j 0)) := by
  intro idxs
  induction idxs with
  | nil =>
      intro itpl itpl2 h
      simp only [appendLoop, Option.some.injEq] at h
      subst h
      exact ⟨rfl, fun j => le_refl _, fun j _ => rfl,
        fun j => le_max_left _ _, fun j _ => le_max_left _ _⟩
  | cons i rest ih =>
      intro itpl itpl2 h
      simp only [appendLoop] at h
      rcases hstep : appendStep cfg g itpl i with _ | itplM
      · rw [hstep] at h; simp at h
      · rw [hstep] at h
        rcases appendStep_some_analysis cfg g itpl i itplM hstep with
          ⟨hl1, hother1, hmono1, hbound1, hboundnc1⟩
        rcases ih itplM itpl2 h with ⟨hl2, hmono2, hother2, hbound2, hboundnc2⟩
        refine ⟨hl2.trans hl1, ?_, ?_, ?_, ?_⟩
        · intro j
          by_cases hj : j = i
          · subst hj; exact le_trans hmono1 (hmono2 j)
          · rw [← hother1 j hj] at *
            exact hmono2 j
        · intro j hj
          have hj1 : j ≠ i := fun he => hj (by simp [he])
          have hj2 : j ∉ rest := fun he => hj (by simp [he])
          rw [hother2 j hj2, hother1 j hj1]
        · intro j
          have hA := hbound2 j
          have hB : (itplM.getD j []).length
              ≤ max (itpl.getD j []).length (cfg.maxItpl.getD j 0 + 1) := by
            by_cases hj : j = i
            · subst hj; exact hbound1
            · rw [hother1 j hj]; exact le_max_left _ _
          omega
        · intro j hnc
          have hA := hboundnc2 j hnc
          have hB : (itplM.getD j []).length
              ≤ max (itpl.getD j []).length (cfg.maxItpl.getD j 0) := by
            by_cases hj : j = i
            · subst hj; exact hboundnc1 hnc
            · rw [hother1 j hj]; exact le_max_left _ _
          omega

theorem appendLoop_grows (cfg : Cfg) (g : List ℕ) :
    ∀ (idxs : List ℕ) (itpl itpl2 : List (List ℕ)) (i : ℕ),
    appendLoop cfg g idxs itpl = some itpl2 → i ∈ idxs → i < itpl.length →
    ¬ (itpl.getD i []).contains (g.getD i 0) = true →
    (itpl.getD i []).length < cfg.maxItpl.getD i 0 →
    (itpl.getD i []).length < (itpl2.getD i []).length := by
  intro idxs
  induction idxs with
  | nil => intro itpl itpl2 i _ hmem; simp at hmem
  | cons a rest ih =>
      intro itpl itpl2 i h hmem hi hcont hcap
      simp only [appendLoop] at h
      rcases hstep : appendStep cfg g itpl a with _ | itplM
      · rw [hstep] at h; simp at h
      · rw [hstep] at h
        rcases appendStep_some_analysis cfg g itpl a itplM hstep with
          ⟨hl1, hother1, _, _, _⟩
        by_cases hia : i = a
        · subst hia
          have h1 := appendStep_grows cfg g itpl i itplM hstep hi hcont hcap
          have h2 := (appendLoop_analysis cfg g rest itplM itpl2 h).2.1 i
          omega
        · have hkeep : itplM.getD i [] = itpl.getD i [] := hother1 i hia
          have hmem2 : i ∈ rest := by
            rcases List.mem_cons.mp hmem with he | hr
            · exact absurd he hia
            · exact hr
          have := ih itplM itpl2 i h hmem2 (by omega) (by rw [hkeep]; exact hcont)
            (by rw [hkeep]; exact hcap)
          rw [hkeep] at this
          exact this

theorem loopGauge_strict (cfg : Cfg) (itpl itpl2 : List (List ℕ)) (i : ℕ)
    (hmono : ∀ j, (itpl.getD j []).length ≤ (itpl2.getD j []).length)
    (hstrict : (itpl.getD i []).length < (itpl2.getD i []).length)
    (hcap : (itpl.getD i []).length < cfg.maxItpl.getD i 0) :
    loopGauge cfg itpl < loopGauge cfg itpl2 := by
  have hilt : i < cfg.maxItpl.length := by
    by_contra hge
    have h0 : cfg.maxItpl.getD i 0 = 0 := List.getD_eq_default _ _ (by omega)
    omega
  apply sum_lt_sum_of_mem (loopGaugeTerm cfg itpl) (loopGaugeTerm cfg itpl2)
  · intro j _
    have := hmono j
    simp only [loopGaugeTerm]
    omega
  · exact List.mem_range.mpr hilt
  · simp only [loopGaugeTerm]
    omega

theorem exists_growth (cfg : Cfg) (itpl : List (List ℕ)) (bary : BaryRep)
    (hwf : cfg.samples.shape.length = cfg.svs.length)
    (hrel : 0 ≤ cfg.relTolSq)
    (hnc : ¬ errMax cfg itpl bary ≤ cfg.relTolSq) :
    ∃ i, i < cfg.svs.length
      ∧ ¬ (itpl.getD i []).contains ((greedyIdx cfg itpl bary).getD i 0) = true
      ∧ (itpl.getD i []).length < cfg.maxItpl.getD i 0 := by
  have hpos : 0 < errMax cfg itpl bary := lt_of_le_of_lt hrel (lt_of_not_le hnc)
  rcases foldl_max_attained ((allIdx cfg).map (maskedErrSq cfg itpl bary)) 0 with h0 | hmem
  · rw [errMax] at hpos
    rw [h0] at hpos
    exact absurd hpos (lt_irrefl 0)
  · rw [← errMax] at hmem
    rcases List.mem_map.mp hmem with ⟨ix0, hix0, hval⟩
    have hfind : ((allIdx cfg).find?
        (fun ix => decide (maskedErrSq cfg itpl bary ix = errMax cfg itpl bary))).isSome := by
      rw [List.find?_isSome]
      exact ⟨ix0, hix0, decide_eq_true hval⟩
    rcases hg : (allIdx cfg).find?
        (fun ix => decide (maskedErrSq cfg itpl bary ix = errMax cfg itpl bary))
      with _ | g
    · rw [hg] at hfind; simp at hfind
    · have hgi : greedyIdx cfg itpl bary = g := by rw [greedyIdx, hg]; rfl
      have hp := List.find?_some hg
      have hgm := List.mem_of_find?_eq_some hg
      have hmg : maskedErrSq cfg itpl bary g = errMax cfg itpl bary :=
        of_decide_eq_true hp
      have hne0 : maskedErrSq cfg itpl bary g ≠ 0 := by
        rw [hmg]
        exact ne_of_gt hpos
      have hnall : ¬ ((List.range cfg.svs.length).all
          (fun i => (zeroIdx cfg itpl i).contains (g.getD i 0))) = true := by
        intro hall
        apply hne0
        rw [maskedErrSq, if_pos hall]
      have hex : ∃ i ∈ List.range cfg.svs.length,
          ¬ ((zeroIdx cfg itpl i).contains (g.getD i 0)) = true := by
        by_contra hforall
        push_neg at hforall
        apply hnall
        rw [List.all_eq_true]
        intro x hx
        exact hforall x hx
      rcases hex with ⟨i, hir, hnc2⟩
      have hilt : i < cfg.svs.length := List.mem_range.mp hir
      by_cases hcap : cfg.maxItpl.getD i 0 ≤ (itpl.getD i []).length
      · exfalso
        apply hnc2
        rw [zeroIdx, if_pos hcap]
        rcases mem_cartProd 0 _ g hgm with ⟨hglen, hgmem⟩
        have hi2 : i < (cfg.samples.shape.map List.range).length := by
          rw [List.length_map, hwf]
          exact hilt
        have hmem2 := hgmem i hi2
        rw [getD_map_lt List.range [] 0 _ i (by rw [hwf]; exact hilt)] at hmem2
        rw [contains_iff_mem]
        exact hmem2
      · refine ⟨i, hilt, ?_, by omega⟩
        rw [hgi]
        rw [zeroIdx, if_neg (by omega)] at hnc2
        exact hnc2


theorem pySlice0_length_le {α : Type} (l : List α) (stop : ℤ) :
    (pySlice0 l stop).length ≤ l.length := by
  rw [pySlice0]
  split_ifs
  · simp
  · simp

theorem getD_range (n j : ℕ) (h : j < n) : (List.range n).getD j 0 = j := by
  rw [List.getD_eq_getElem _ _ (by simpa using h)]
  simp

theorem post_processing_analysis (O : Oracle) (samples : Tensor Cx)
    (svs : List (List Cx)) (ph : PHeap) (addr : ℕ) (d_nsp : ℕ) :
    (_post_processing O samples svs ph addr d_nsp).1.length = ph.length
    ∧ (∀ pr, (_post_processing O samples svs ph addr d_nsp).2 = some pr → pr.2 = addr)
    ∧ ((_post_processing O samples svs ph addr d_nsp).2 = none →
        (_post_processing O samples svs ph addr d_nsp).1 = ph)
    ∧ (∀ j, j ≠ addr →
        (_post_processing O samples svs ph addr d_nsp).1.getD j [] = ph.getD j [])
    ∧ (∀ j, (((_post_processing O samples svs ph addr d_nsp).1.getD addr []).getD j []).length
        ≤ ((ph.getD addr []).getD j []).length) := by
  simp only [_post_processing]
  split_ifs with hcase
  · exact ⟨rfl, fun pr hpr => by simp at hpr, fun _ => rfl, fun j _ => rfl,
      fun j => le_refl _⟩
  · refine ⟨by simp [List.length_set], fun pr hpr => ?_, fun hn => by simp at hn, ?_, ?_⟩
    · simp only [Option.some.injEq] at hpr
      rw [← hpr]
    · intro j hj
      exact getD_set_other [] ph addr j _ (fun he => hj he.symm)
    · intro j
      by_cases haddr : addr < ph.length
      · rw [getD_set_self [] ph addr _ haddr]
        by_cases hj : j < svs.length
        · rw [getD_map_lt _ [] 0 _ j (by simpa using hj)]
          rw [getD_range _ _ (by simpa using hj)]
          exact pySlice0_length_le _ _
        · rw [List.getD_eq_default _ _ (by simpa using hj)]
          simp
      · rw [set_oob ph addr _ (by omega)]

theorem ppPhase_analysis (cfg : Cfg) (ph2 : PHeap) (addr : ℕ) (itpl2 : List (List ℕ)) :
    (ppPhase cfg ph2 addr itpl2).1.length = ph2.length
    ∧ (((ppPhase cfg ph2 addr itpl2).2).2).1 = addr
    ∧ (∀ j, j ≠ addr → (ppPhase cfg ph2 addr itpl2).1.getD j [] = ph2.getD j [])
    ∧ (∀ j, ((((ppPhase cfg ph2 addr itpl2).1).getD addr []).getD j []).length
        ≤ ((ph2.getD addr []).getD j []).length)
    ∧ (¬ (solveDnsp cfg itpl2 > 1 ∧ cfg.postProcess = true) →
        ppPhase cfg ph2 addr itpl2
          = (ph2, solveCoefs cfg itpl2, addr,
              if solveDnsp cfg itpl2 > 1 then [LogMsg.nonMinWarn] else [])) := by
  rw [ppPhase]
  rcases post_processing_analysis cfg.oracle cfg.samples cfg.svs ph2 addr
    (solveDnsp cfg itpl2) with ⟨hl, hpr, hnone, hother, hshrink⟩
  by_cases hd : solveDnsp cfg itpl2 > 1
  · rw [if_pos hd]
    by_cases hp : cfg.postProcess = true
    · rw [if_pos hp]
      rcases hres : _post_processing cfg.oracle cfg.samples cfg.svs ph2 addr
          (solveDnsp cfg itpl2) with ⟨ph3, opt⟩
      rcases opt with _ | pr
      · rw [hres] at hl hpr hnone hother hshrink
        dsimp only at hl hpr hnone hother hshrink ⊢
        have h3 : ph3 = ph2 := hnone rfl
        subst h3
        exact ⟨hl, rfl, hother, hshrink, fun hcc => absurd ⟨hd, hp⟩ hcc⟩
      · rw [hres] at hl hpr hnone hother hshrink
        dsimp only at hl hpr hnone hother hshrink ⊢
        exact ⟨hl, hpr pr rfl, hother, hshrink, fun hcc => absurd ⟨hd, hp⟩ hcc⟩
    · rw [if_neg hp]
      refine ⟨rfl, rfl, fun j _ => rfl, fun j => le_refl _, fun _ => ?_⟩
      rw [if_pos hd]
  · rw [if_neg hd]
    refine ⟨rfl, rfl, fun j _ => rfl, fun j => le_refl _, fun _ => ?_⟩
    rw [if_neg hd]

theorem rebuildState_facts (cfg : Cfg) (st1 : LState) (itpl2 : List (List ℕ))
    (haddr : st1.itplAddr < st1.ph.length) :
    (rebuildState cfg st1 itpl2).itplAddr = st1.itplAddr
    ∧ (rebuildState cfg st1 itpl2).ph.length = st1.ph.length
    ∧ (∀ j, (((rebuildState cfg st1 itpl2).itpl).getD j []).length
        ≤ (itpl2.getD j []).length)
    ∧ (¬ (solveDnsp cfg itpl2 > 1 ∧ cfg.postProcess = true) →
        (rebuildState cfg st1 itpl2).itpl = itpl2)
    ∧ (∀ b, b ≠ st1.itplAddr →
        (rebuildState cfg st1 itpl2).ph.getD b [] = st1.ph.getD b []) := by
  rcases ppPhase_analysis cfg (st1.ph.set st1.itplAddr itpl2) st1.itplAddr itpl2 with
    ⟨hl, haddr2, hother, hshrink, hnopp⟩
  simp only [rebuildState, LState.itpl]
  refine ⟨haddr2, by rw [hl, List.length_set], ?_, ?_, ?_⟩
  · intro j
    rw [haddr2]
    have := hshrink j
    rw [getD_set_self [] st1.ph st1.itplAddr itpl2 haddr] at this
    exact this
  · intro hcc
    rw [haddr2, hnopp hcc]
    dsimp only
    exact getD_set_self [] st1.ph st1.itplAddr itpl2 haddr
  · intro b hb
    rw [hother b hb, getD_set_other [] st1.ph st1.itplAddr b itpl2 (fun he => hb he.symm)]

theorem loopBody_cont_facts (cfg : Cfg) (st st2 : LState)
    (hwf : cfg.samples.shape.length = cfg.svs.length)
    (hrel : 0 ≤ cfg.relTolSq)
    (haddr : st.itplAddr < st.ph.length)
    (hlen : st.itpl.length = cfg.svs.length)
    (h : loopBody cfg st = StepRes.cont st2) :
    loopGauge cfg st.itpl < loopGauge cfg st2.itpl
    ∧ st2.ph.length = st.ph.length
    ∧ st2.itplAddr = st.itplAddr
    ∧ st2.itpl.length = cfg.svs.length := by
  rw [loopBody] at h
  by_cases hconv : errMax cfg st.itpl st.bary ≤ cfg.relTolSq
  · rw [if_pos hconv] at h
    exact absurd h (by simp)
  · rw [if_neg hconv] at h
    rcases hap : appendLoop cfg (greedyIdx cfg st.itpl st.bary)
        (List.range cfg.svs.length) st.itpl with _ | itpl2
    all_goals rw [hap] at h
    · exact absurd h (by simp)
    · dsimp only at h
      by_cases hbrk : cfg.postProcess = true ∧ solveDnsp cfg itpl2 ≥ 1
      · rw [if_pos hbrk] at h
        exact absurd h (by simp)
      · rw [if_neg hbrk] at h
        simp only [StepRes.cont.injEq] at h
        subst h
        have hnopp : ¬ (solveDnsp cfg itpl2 > 1 ∧ cfg.postProcess = true) := by
          intro hcc
          exact hbrk ⟨hcc.2, by omega⟩
        rcases rebuildState_facts cfg { st with log := st.log ++ [LogMsg.stepInfo], j := st.j + 1 } itpl2 haddr with ⟨ha2, hl2, _, hitpl, _⟩
        rcases appendLoop_analysis cfg (greedyIdx cfg st.itpl st.bary)
            (List.range cfg.svs.length) st.itpl itpl2 hap with
          ⟨hlen2, hmono, _, _, _⟩
        have hitpl2 := hitpl hnopp
        rcases exists_growth cfg st.itpl st.bary hwf hrel hconv with ⟨i, hi, hcont, hcap⟩
        have hgrow := appendLoop_grows cfg (greedyIdx cfg st.itpl st.bary)
          (List.range cfg.svs.length) st.itpl itpl2 i hap
          (List.mem_range.mpr hi) (by omega) hcont hcap
        refine ⟨?_, ?_, ?_, ?_⟩
        · rw [hitpl2]
          exact loopGauge_strict cfg st.itpl itpl2 i hmono hgrow hcap
        · exact hl2
        · exact ha2
        · rw [hitpl2, hlen2]
          exact hlen

theorem loopGo_isSome (cfg : Cfg)
    (hwf : cfg.samples.shape.length = cfg.svs.length)
    (hrel : 0 ≤ cfg.relTolSq) :
    ∀ (n : ℕ) (st : LState), st.itplAddr < st.ph.length →
    st.itpl.length = cfg.svs.length →
    (cfg.maxItpl.map (fun m => m + 2)).sum < n + loopGauge cfg st.itpl →
    (loopGo cfg n st).isSome := by
  intro n
  induction n with
  | zero =>
      intro st _ _ hfuel
      have := loopGauge_le cfg st.itpl
      omega
  | succ m ih =>
      intro st haddr hlen hfuel
      rw [loopGo]
      by_cases hw : whileCond cfg st.itpl = true
      · rw [if_pos hw]
        rcases hb : loopBody cfg st with st2 | st2 | st2 | _
        · rcases loopBody_cont_facts cfg st st2 hwf hrel haddr hlen hb with
            ⟨hg, hphl, ha, hl⟩
          exact ih st2 (by rw [ha, hphl]; exact haddr) hl (by omega)
        · simp
        · simp
        · simp
      · rw [if_neg hw]
        simp

theorem set_getD_self {α : Type} (d : α) :
    ∀ (l : List α) (i : ℕ), i < l.length → l.set i (l.getD i d) = l := by
  intro l
  induction l with
  | nil => intro i h; simp at h
  | cons a l ih =>
      intro i h
      cases i with
      | zero => rfl
      | succ j => simp only [List.set_cons_succ, List.getD_cons_succ]; rw [ih j (by simpa using h)]

/-- The per-variable transformation the greedy append applies to the
interpolation partition entry of variable `i` (source lines 186-193):
append the greedy index when it is new and below the cap, together with
the conjugate location index in the conjugate case; `none` models the
`IndexError` when the conjugate location is absent. -/
def appendEntry (cfg : Cfg) (g : List ℕ) (i : ℕ) (e : List ℕ) : Option (List ℕ) :=
  if ¬ e.contains (g.getD i 0) = true ∧ e.length < cfg.maxItpl.getD i 0 then
    if i = 0 ∧ cfg.conjugate = true
        ∧ ((cfg.svs.getD i []).getD (g.getD i 0) 0).im ≠ 0 then
      match (cfg.svs.getD 0 []).findIdx?
          (fun s => decide (s = Cx.conj ((cfg.svs.getD i []).getD (g.getD i 0) 0))) with
      | some ci => some (e ++ [g.getD i 0, ci])
      | none => none
    else some (e ++ [g.getD i 0])
  else some e

theorem appendStep_eq_entry (cfg : Cfg) (g : List ℕ) (itpl : List (List ℕ)) (i : ℕ)
    (hi : i < itpl.length) :
    appendStep cfg g itpl i
      = (appendEntry cfg g i (itpl.getD i [])).map (fun e2 => itpl.set i e2) := by
  rw [appendStep, appendEntry]
  split_ifs with hc h3
  · rcases hfind : (cfg.svs.getD 0 []).findIdx?
        (fun s => decide (s = Cx.conj ((cfg.svs.getD i []).getD (g.getD i 0) 0))) with _ | ci
    · rfl
    · rw [Option.map_some']
      dsimp only
      rw [getD_set_self [] itpl i _ hi]
      simp only [List.set_set, List.append_assoc]
      rfl
  · rfl
  · rw [Option.map_some']
    exact congrArg some (set_getD_self [] itpl i hi).symm

theorem appendLoop_entry (cfg : Cfg) (g : List ℕ) :
    ∀ (idxs : List ℕ) (itpl itpl2 : List (List ℕ)) (i : ℕ),
    appendLoop cfg g idxs itpl = some itpl2 → i ∈ idxs → idxs.Nodup →
    i < itpl.length →
    appendEntry cfg g i (itpl.getD i []) = some (itpl2.getD i []) := by
  intro idxs
  induction idxs with
  | nil => intro itpl itpl2 i _ hmem; simp at hmem
  | cons a rest ih =>
      intro itpl itpl2 i h hmem hnd hi
      simp only [appendLoop] at h
      rcases hstep : appendStep cfg g itpl a with _ | itplM
      · rw [hstep] at h
        exact absurd h (by simp)
      · rw [hstep] at h
        by_cases hia : i = a
        · subst hia
          rw [appendStep_eq_entry cfg g itpl i hi] at hstep
          rcases hent : appendEntry cfg g i (itpl.getD i []) with _ | e2
          · rw [hent, Option.map_none'] at hstep
            exact absurd hstep (by simp)
          · rw [hent, Option.map_some'] at hstep
            simp only [Option.some.injEq] at hstep
            have hnotrest : i ∉ rest := by
              have := List.nodup_cons.mp hnd
              exact this.1
            have huntouched := (appendLoop_analysis cfg g rest itplM itpl2 h).2.2.1 i hnotrest
            rw [huntouched, ← hstep, getD_set_self [] itpl i e2 hi]
        · rcases appendStep_some_analysis cfg g itpl a itplM hstep with ⟨hl1, hother1, _, _, _⟩
          have hmem2 : i ∈ rest := by
            rcases List.mem_cons.mp hmem with he | hr
            · exact absurd he hia
            · exact hr
          have := ih itplM itpl2 i h hmem2 (List.nodup_cons.mp hnd).2 (by omega)
          rw [hother1 i hia] at this
          exact this

/-- The partition component of a loop-body outcome. -/
def stepItpl : StepRes → List (List ℕ)
  | StepRes.cont st => st.itpl
  | StepRes.convBrk st => st.itpl
  | StepRes.nspBrk st => st.itpl
  | StepRes.err => []

/-- Every non-error outcome of the loop body keeps the partition address,
the heap length, and every heap cell other than the partition's own. -/
theorem loopBody_preserves (cfg : Cfg) (st st2 : LState)
    (haddr : st.itplAddr < st.ph.length)
    (h : loopBody cfg st = StepRes.cont st2 ∨ loopBody cfg st = StepRes.convBrk st2
      ∨ loopBody cfg st = StepRes.nspBrk st2) :
    st2.itplAddr = st.itplAddr
    ∧ st2.ph.length = st.ph.length
    ∧ (∀ b, b ≠ st.itplAddr → st2.ph.getD b [] = st.ph.getD b []) := by
  rw [loopBody] at h
  by_cases hconv : errMax cfg st.itpl st.bary ≤ cfg.relTolSq
  · rw [if_pos hconv] at h
    rcases h with h | h | h
    · exact absurd h (by simp)
    · simp only [StepRes.convBrk.injEq] at h
      subst h
      exact ⟨rfl, rfl, fun b _ => rfl⟩
    · exact absurd h (by simp)
  · rw [if_neg hconv] at h
    rcases hap : appendLoop cfg (greedyIdx cfg st.itpl st.bary)
        (List.range cfg.svs.length) st.itpl with _ | itpl2
    all_goals rw [hap] at h
    · rcases h with h | h | h <;> exact absurd h (by simp)
    · dsimp only at h
      rcases rebuildState_facts cfg
          { st with log := st.log ++ [LogMsg.stepInfo], j := st.j + 1 } itpl2 haddr with
        ⟨ha2, hl2, _, _, hob⟩
      by_cases hbrk : cfg.postProcess = true ∧ solveDnsp cfg itpl2 ≥ 1
      · rw [if_pos hbrk] at h
        rcases h with h | h | h
        · exact absurd h (by simp)
        · exact absurd h (by simp)
        · simp only [StepRes.nspBrk.injEq] at h
          subst h
          exact ⟨ha2, hl2, hob⟩
      · rw [if_neg hbrk] at h
        rcases h with h | h | h
        · simp only [StepRes.cont.injEq] at h
          subst h
          exact ⟨ha2, hl2, hob⟩
        · exact absurd h (by simp)
        · exact absurd h (by simp)

/-- The loop body leaves the barycentric form untouched on a convergence
break and rebuilds it as a `rat` form on a continue or null-space break. -/
theorem loopBody_bary (cfg : Cfg) (st st2 : LState) :
    (loopBody cfg st = StepRes.convBrk st2 → st2.bary = st.bary)
    ∧ ((loopBody cfg st = StepRes.cont st2 ∨ loopBody cfg st = StepRes.nspBrk st2) →
        ∃ no v c, st2.bary = BaryRep.rat no v c) := by
  constructor
  · intro h
    rw [loopBody] at h
    by_cases hconv : errMax cfg st.itpl st.bary ≤ cfg.relTolSq
    · rw [if_pos hconv] at h
      simp only [StepRes.convBrk.injEq] at h
      subst h
      rfl
    · rw [if_neg hconv] at h
      rcases hap : appendLoop cfg (greedyIdx cfg st.itpl st.bary)
          (List.range cfg.svs.length) st.itpl with _ | itpl2
      all_goals rw [hap] at h
      · exact absurd h (by simp)
      · dsimp only at h
        by_cases hbrk : cfg.postProcess = true ∧ solveDnsp cfg itpl2 ≥ 1
        · rw [if_pos hbrk] at h
          exact absurd h (by simp)
        · rw [if_neg hbrk] at h
          exact absurd h (by simp)
  · intro h
    rw [loopBody] at h
    by_cases hconv : errMax cfg st.itpl st.bary ≤ cfg.relTolSq
    · rw [if_pos hconv] at h
      rcases h with h | h <;> exact absurd h (by simp)
    · rw [if_neg hconv] at h
      rcases hap : appendLoop cfg (greedyIdx cfg st.itpl st.bary)
          (List.range cfg.svs.length) st.itpl with _ | itpl2
      all_goals rw [hap] at h
      · rcases h with h | h <;> exact absurd h (by simp)
      · dsimp only at h
        by_cases hbrk : cfg.postProcess = true ∧ solveDnsp cfg itpl2 ≥ 1
        · rw [if_pos hbrk] at h
          rcases h with h | h
          · exact absurd h (by simp)
          · simp only [StepRes.nspBrk.injEq] at h
            subst h
            exact ⟨_, _, _, rfl⟩
        · rw [if_neg hbrk] at h
          rcases h with h | h
          · simp only [StepRes.cont.injEq] at h
            subst h
            exact ⟨_, _, _, rfl⟩
          · exact absurd h (by simp)

/-- Along any completed run of the loop, the partition address, the heap
length, and all other heap cells are preserved, and a `rat` barycentric
form stays `rat`. -/
theorem loopGo_done_facts (cfg : Cfg) :
    ∀ (n : ℕ) (st stF : LState), st.itplAddr < st.ph.length →
      loopGo cfg n st = some (LoopOut.done stF) →
      stF.itplAddr = st.itplAddr
      ∧ stF.ph.length = st.ph.length
      ∧ (∀ b, b ≠ st.itplAddr → stF.ph.getD b [] = st.ph.getD b [])
      ∧ ((∃ no v c, st.bary = BaryRep.rat no v c) →
          ∃ no v c, stF.bary = BaryRep.rat no v c) := by
  intro n
  induction n with
  | zero =>
      intro st stF _ h
      exact absurd h (by simp [loopGo])
  | succ m ih =>
      intro st stF haddr h
      rw [loopGo] at h
      by_cases hw : whileCond cfg st.itpl = true
      · rw [if_pos hw] at h
        rcases hb : loopBody cfg st with st2 | st2 | st2 | _
        all_goals rw [hb] at h
        · rcases loopBody_preserves cfg st st2 haddr (Or.inl hb) with ⟨ha, hl, hob⟩
          rcases ih st2 stF (by rw [ha, hl]; exact haddr) h with ⟨ha2, hl2, hob2, _⟩
          refine ⟨by rw [ha2, ha], by rw [hl2, hl], ?_, ?_⟩
          · intro b hb2
            rw [hob2 b (by rw [ha]; exact hb2), hob b hb2]
          · intro _
            rcases (loopBody_bary cfg st st2).2 (Or.inl hb) with ⟨no, v, c, hrat⟩
            rcases ih st2 stF (by rw [ha, hl]; exact haddr) h with ⟨_, _, _, hbar⟩
            exact hbar ⟨no, v, c, hrat⟩
        · simp only [Option.some.injEq, LoopOut.done.injEq] at h
          subst h
          rcases loopBody_preserves cfg st st2 haddr (Or.inr (Or.inl hb)) with ⟨ha, hl, hob⟩
          refine ⟨ha, hl, hob, ?_⟩
          intro hst
          rw [(loopBody_bary cfg st st2).1 hb]
          exact hst
        · simp only [Option.some.injEq, LoopOut.done.injEq] at h
          subst h
          rcases loopBody_preserves cfg st st2 haddr (Or.inr (Or.inr hb)) with ⟨ha, hl, hob⟩
          refine ⟨ha, hl, hob, ?_⟩
          intro _
          exact (loopBody_bary cfg st st2).2 (Or.inr hb)
        · exact absurd h (by simp)
      · rw [if_neg hw] at h
        simp only [Option.some.injEq, LoopOut.done.injEq] at h
        subst h
        exact ⟨rfl, rfl, fun b _ => rfl, id⟩

/-- When the loop has not converged, the greedy index is one of the grid
indices (`np.unravel_index` of an attained argmax). -/
theorem greedyIdx_mem (cfg : Cfg) (itpl : List (List ℕ)) (bary : BaryRep)
    (hrel : 0 ≤ cfg.relTolSq)
    (hnc : ¬ errMax cfg itpl bary ≤ cfg.relTolSq) :
    greedyIdx cfg itpl bary ∈ allIdx cfg := by
  have hpos : 0 < errMax cfg itpl bary := lt_of_le_of_lt hrel (lt_of_not_le hnc)
  rcases foldl_max_attained ((allIdx cfg).map (maskedErrSq cfg itpl bary)) 0 with h0 | hmem
  · rw [errMax] at hpos
    rw [h0] at hpos
    exact absurd hpos (lt_irrefl 0)
  · rw [← errMax] at hmem
    rcases List.mem_map.mp hmem with ⟨ix0, hix0, hval⟩
    rcases hg : (allIdx cfg).find?
        (fun ix => decide (maskedErrSq cfg itpl bary ix = errMax cfg itpl bary))
      with _ | g
    · exfalso
      have hfind : ((allIdx cfg).find?
          (fun ix => decide (maskedErrSq cfg itpl bary ix = errMax cfg itpl bary))).isSome := by
        rw [List.find?_isSome]
        exact ⟨ix0, hix0, decide_eq_true hval⟩
      rw [hg] at hfind
      simp at hfind
    · have hgi : greedyIdx cfg itpl bary = g := by rw [greedyIdx, hg]; rfl
      rw [hgi]
      exact List.mem_of_find?_eq_some hg

/-- The greedy append for one variable cannot raise: the `IndexError`
lookup is reached only in the conjugate case, where the caller guarantees
the conjugate location is present. -/
theorem appendStep_isSome (cfg : Cfg) (g : List ℕ) (itpl : List (List ℕ)) (i : ℕ)
    (hcl : cfg.conjugate = true →
      Cx.conj ((cfg.svs.getD 0 []).getD (g.getD 0 0) 0) ∈ cfg.svs.getD 0 []) :
    (appendStep cfg g itpl i).isSome := by
  rw [appendStep]
  split_ifs with h1 h2
  · rcases h2 with ⟨hi0, hconj, _⟩
    subst hi0
    rcases hfind : (cfg.svs.getD 0 []).findIdx?
        (fun s => s = Cx.conj ((cfg.svs.getD 0 []).getD (g.getD 0 0) 0)) with _ | ci
    · exfalso
      have hnone := (List.findIdx?_eq_none_iff.mp hfind)
        (Cx.conj ((cfg.svs.getD 0 []).getD (g.getD 0 0) 0)) (hcl hconj)
      simp at hnone
    · simp
  · simp
  · simp

/-- The whole greedy append loop cannot raise under the same guarantee. -/
theorem appendLoop_isSome (cfg : Cfg) (g : List ℕ)
    (hcl : cfg.conjugate = true →
      Cx.conj ((cfg.svs.getD 0 []).getD (g.getD 0 0) 0) ∈ cfg.svs.getD 0 []) :
    ∀ (idxs : List ℕ) (itpl : List (List ℕ)), (appendLoop cfg g idxs itpl).isSome := by
  intro idxs
  induction idxs with
  | nil => intro itpl; simp [appendLoop]
  | cons a rest ih =>
      intro itpl
      rcases hstep : appendStep cfg g itpl a with _ | itpl2
      · exact absurd (appendStep_isSome cfg g itpl a hcl) (by rw [hstep]; simp)
      · rw [appendLoop, hstep]
        exact ih itpl2

/-- Under a conjugation-closed variable-0 grid (or `conjugate=False`), the
loop body never raises: the only error source is the conjugate-location
lookup. -/
theorem loopBody_ne_err (cfg : Cfg) (st : LState)
    (hwf : cfg.samples.shape.length = cfg.svs.length)
    (hwf2 : 0 < cfg.svs.length →
      cfg.samples.shape.getD 0 0 = (cfg.svs.getD 0 []).length)
    (hrel : 0 ≤ cfg.relTolSq)
    (hclosed : cfg.conjugate = true →
      ∀ z ∈ cfg.svs.getD 0 [], Cx.conj z ∈ cfg.svs.getD 0 []) :
    loopBody cfg st ≠ StepRes.err := by
  intro h
  rw [loopBody] at h
  by_cases hconv : errMax cfg st.itpl st.bary ≤ cfg.relTolSq
  · rw [if_pos hconv] at h
    exact absurd h (by simp)
  · rw [if_neg hconv] at h
    rcases hap : appendLoop cfg (greedyIdx cfg st.itpl st.bary)
        (List.range cfg.svs.length) st.itpl with _ | itpl2
    · by_cases hz : cfg.svs.length = 0
      · rw [hz, List.range_zero] at hap
        simp [appendLoop] at hap
      · have hcl : cfg.conjugate = true →
            Cx.conj ((cfg.svs.getD 0 []).getD
              ((greedyIdx cfg st.itpl st.bary).getD 0 0) 0) ∈ cfg.svs.getD 0 [] := by
          intro hc
          have hg := greedyIdx_mem cfg st.itpl st.bary hrel hconv
          rcases mem_cartProd 0 _ _ hg with ⟨hglen, hgmem⟩
          have h0m := hgmem 0 (by rw [List.length_map, hwf]; omega)
          rw [getD_map_lt List.range [] 0 _ 0 (by rw [hwf]; omega)] at h0m
          have hlt : (greedyIdx cfg st.itpl st.bary).getD 0 0
              < cfg.samples.shape.getD 0 0 := List.mem_range.mp h0m
          rw [hwf2 (by omega)] at hlt
          refine hclosed hc _ ?_
          rw [List.getD_eq_getElem _ _ hlt]
          exact List.getElem_mem _
        exact absurd (appendLoop_isSome cfg _ hcl _ st.itpl) (by rw [hap]; simp)
    · rw [hap] at h
      dsimp only at h
      by_cases hbrk : cfg.postProcess = true ∧ solveDnsp cfg itpl2 ≥ 1
      · rw [if_pos hbrk] at h
        exact absurd h (by simp)
      · rw [if_neg hbrk] at h
        exact absurd h (by simp)

/-- Under the same guarantee, the loop never reports the error outcome. -/
theorem loopGo_ne_errOut (cfg : Cfg)
    (hwf : cfg.samples.shape.length = cfg.svs.length)
    (hwf2 : 0 < cfg.svs.length →
      cfg.samples.shape.getD 0 0 = (cfg.svs.getD 0 []).length)
    (hrel : 0 ≤ cfg.relTolSq)
    (hclosed : cfg.conjugate = true →
      ∀ z ∈ cfg.svs.getD 0 [], Cx.conj z ∈ cfg.svs.getD 0 []) :
    ∀ (n : ℕ) (st : LState), loopGo cfg n st ≠ some LoopOut.errOut := by
  intro n
  induction n with
  | zero => intro st h; simp [loopGo] at h
  | succ m ih =>
      intro st h
      rw [loopGo] at h
      by_cases hw : whileCond cfg st.itpl = true
      · rw [if_pos hw] at h
        rcases hb : loopBody cfg st with st2 | st2 | st2 | _
        all_goals rw [hb] at h
        · exact ih st2 h
        · simp at h
        · simp at h
        · exact loopBody_ne_err cfg st hwf hwf2 hrel hclosed hb
      · rw [if_neg hw] at h
        simp at h

/-- Membership in the conjugate-augmented variable-0 grid: the original
locations plus exactly the conjugates of those locations whose conjugate
was absent. -/
theorem conjAugment_mem (svs0 : List Cx) (samples : Tensor Cx) (z : Cx) :
    z ∈ (conjAugment svs0 samples).1 ↔
      (z ∈ svs0 ∨ ∃ i, i < svs0.length ∧ Cx.conj (svs0.getD i 0) ∉ svs0
        ∧ z = Cx.conj (svs0.getD i 0)) := by
  rw [conjAugment]
  by_cases hs : ((List.range svs0.length).filter
      (fun i => ¬ svs0.contains (Cx.conj (svs0.getD i 0)))).map
      (fun i => Cx.conj (svs0.getD i 0)) = []
  · rw [if_pos hs]
    dsimp only
    constructor
    · exact Or.inl
    · rintro (hz | ⟨i, hi, hnc, he⟩)
      · exact hz
      · exfalso
        have hmem : Cx.conj (svs0.getD i 0) ∈
            ((List.range svs0.length).filter
              (fun i => ¬ svs0.contains (Cx.conj (svs0.getD i 0)))).map
              (fun i => Cx.conj (svs0.getD i 0)) := by
          refine List.mem_map.mpr ⟨i, ?_, rfl⟩
          refine List.mem_filter.mpr ⟨List.mem_range.mpr hi, ?_⟩
          simp only [Bool.not_eq_true', decide_eq_true_eq]
          rw [Bool.not_eq_true]
          rw [← Bool.not_eq_true (svs0.contains (Cx.conj (svs0.getD i 0)))]
          intro hcc
          exact hnc ((contains_iff_mem svs0 _).mp hcc)
        rw [hs] at hmem
        simp at hmem
  · rw [if_neg hs]
    dsimp only
    rw [List.mem_append]
    constructor
    · rintro (hz | hz)
      · exact Or.inl hz
      · rcases List.mem_map.mp hz with ⟨i, hif, he⟩
        rcases List.mem_filter.mp hif with ⟨hir, hnc⟩
        refine Or.inr ⟨i, List.mem_range.mp hir, ?_, he.symm⟩
        intro hmem
        exact (of_decide_eq_true hnc) ((contains_iff_mem svs0 _).mpr hmem)
    · rintro (hz | ⟨i, hi, hnc, he⟩)
      · exact Or.inl hz
      · refine Or.inr (List.mem_map.mpr ⟨i, ?_, he.symm⟩)
        refine List.mem_filter.mpr ⟨List.mem_range.mpr hi, ?_⟩
        refine decide_eq_true ?_
        intro hcc
        exact hnc ((contains_iff_mem svs0 _).mp hcc)

/-- The conjugate-augmented variable-0 grid is closed under complex
conjugation. -/
theorem conjAugment_closed (svs0 : List Cx) (samples : Tensor Cx) :
    ∀ z ∈ (conjAugment svs0 samples).1, Cx.conj z ∈ (conjAugment svs0 samples).1 := by
  intro z hz
  rw [conjAugment_mem] at hz ⊢
  rcases hz with hz | ⟨i, hi, hnc, he⟩
  · by_cases hc : Cx.conj z ∈ svs0
    · exact Or.inl hc
    · rcases List.mem_iff_getElem.mp hz with ⟨i, hi, he⟩
      refine Or.inr ⟨i, hi, ?_, ?_⟩
      · rw [List.getD_eq_getElem _ _ hi, he]
        exact hc
      · rw [List.getD_eq_getElem _ _ hi, he]
  · subst he
    rw [Cx.conj_conj]
    refine Or.inl ?_
    rw [List.getD_eq_getElem _ _ hi]
    exact List.getElem_mem _

/-- With `conjugate=True`, the variable-0 grid the loop sees is the
conjugate-augmented one (`svs[0] = np.append(...)` rebinds entry 0). -/
theorem mkCfg_svs0 (sampling_values : List (List Cx)) (samplesIn : Tensor Cx)
    (postProcess : Bool) (O : Oracle) (tol : ℚ) (mA : Option (List ℕ))
    (h0 : 0 < sampling_values.length) :
    (mkCfg sampling_values samplesIn true postProcess O tol mA).svs.getD 0 []
      = (conjAugment (sampling_values.getD 0 []) samplesIn).1 := by
  show (sampling_values.set 0
      (conjAugment (sampling_values.getD 0 []) samplesIn).1).getD 0 []
    = (conjAugment (sampling_values.getD 0 []) samplesIn).1
  exact getD_set_self [] sampling_values 0 _ h0

/-- The grid the loop sees with `conjugate=False` is the caller's. -/
theorem mkCfg_svs0_noconj (sampling_values : List (List Cx)) (samplesIn : Tensor Cx)
    (postProcess : Bool) (O : Oracle) (tol : ℚ) (mA : Option (List ℕ))
    (h0 : 0 < sampling_values.length) :
    (mkCfg sampling_values samplesIn false postProcess O tol mA).svs.getD 0 []
      = sampling_values.getD 0 [] := by
  show (sampling_values.set 0 (sampling_values.getD 0 [])).getD 0 []
    = sampling_values.getD 0 []
  exact getD_set_self [] sampling_values 0 _ h0

/-- Shape bookkeeping of the conjugate augmentation: the number of
variables is unchanged and variable 0's extent matches the augmented
grid's length. -/
theorem conjAugment_shape (svs0 : List Cx) (samples : Tensor Cx)
    (hs : 0 < samples.shape.length) :
    (conjAugment svs0 samples).2.shape.length = samples.shape.length
    ∧ (samples.shape.getD 0 0 = svs0.length →
        (conjAugment svs0 samples).2.shape.getD 0 0
          = ((conjAugment svs0 samples).1).length) := by
  rw [conjAugment]
  by_cases hc : ((List.range svs0.length).filter
      (fun i => ¬ svs0.contains (Cx.conj (svs0.getD i 0)))).map
      (fun i => Cx.conj (svs0.getD i 0)) = []
  · rw [if_pos hc]
    exact ⟨rfl, fun h => h⟩
  · rw [if_neg hc]
    dsimp only
    constructor
    · rw [List.length_cons, List.length_drop]
      omega
    · intro h
      rw [List.getD_cons_zero, h, List.length_append, List.length_map]

/-- Well-formedness of the configuration `reduce` builds: shape/grid
consistency is preserved by the augmentation, and the squared relative
tolerance is nonnegative. -/
theorem mkCfg_wf (sampling_values : List (List Cx)) (samplesIn : Tensor Cx)
    (conjugate postProcess : Bool) (O : Oracle) (tol : ℚ) (mA : Option (List ℕ))
    (hlen : samplesIn.shape.length = sampling_values.length)
    (hpos : 0 < sampling_values.length)
    (h0 : samplesIn.shape.getD 0 0 = (sampling_values.getD 0 []).length) :
    (mkCfg sampling_values samplesIn conjugate postProcess O tol mA).samples.shape.length
      = (mkCfg sampling_values samplesIn conjugate postProcess O tol mA).svs.length
    ∧ (mkCfg sampling_values samplesIn conjugate postProcess O tol mA).samples.shape.getD 0 0
      = ((mkCfg sampling_values samplesIn conjugate postProcess O tol
          mA).svs.getD 0 []).length
    ∧ 0 ≤ (mkCfg sampling_values samplesIn conjugate postProcess O tol mA).relTolSq := by
  have hrel : 0 ≤ (mkCfg sampling_values samplesIn conjugate postProcess O tol
      mA).relTolSq := by
    show 0 ≤ tol ^ 2 * maxAbsSqData _
    exact mul_nonneg (sq_nonneg tol) (foldl_max_le_acc _ 0)
  cases conjugate with
  | false =>
      refine ⟨?_, ?_, hrel⟩
      · show samplesIn.shape.length
          = (sampling_values.set 0 (sampling_values.getD 0 [])).length
        rw [List.length_set]
        exact hlen
      · show samplesIn.shape.getD 0 0
          = ((sampling_values.set 0 (sampling_values.getD 0 [])).getD 0 []).length
        rw [getD_set_self [] sampling_values 0 _ hpos]
        exact h0
  | true =>
      have hs : 0 < samplesIn.shape.length := by omega
      rcases conjAugment_shape (sampling_values.getD 0 []) samplesIn hs with ⟨hl, hg⟩
      refine ⟨?_, ?_, hrel⟩
      · show (conjAugment (sampling_values.getD 0 []) samplesIn).2.shape.length
          = (sampling_values.set 0
              (conjAugment (sampling_values.getD 0 []) samplesIn).1).length
        rw [List.length_set, hl]
        exact hlen
      · show (conjAugment (sampling_values.getD 0 []) samplesIn).2.shape.getD 0 0
          = ((sampling_values.set 0
              (conjAugment (sampling_values.getD 0 []) samplesIn).1).getD 0 []).length
        rw [getD_set_self [] sampling_values 0 _ hpos]
        exact hg h0

theorem getD_append_self {α : Type} (d : α) (l : List α) (x : α) :
    (l ++ [x]).getD l.length d = x := by
  rw [List.getD_eq_getElem _ _ (by simp)]
  simp

/-- The loop body declares convergence (line 181-182 `if err <= rel_tol:
break`) exactly when the masked maximum error is at most the relative
tolerance. -/
theorem loopBody_convBrk_iff (cfg : Cfg) (st : LState) :
    (∃ st2, loopBody cfg st = StepRes.convBrk st2) ↔
      errMax cfg st.itpl st.bary ≤ cfg.relTolSq := by
  constructor
  · rintro ⟨st2, h⟩
    by_contra hnc
    rw [loopBody, if_neg hnc] at h
    rcases hap : appendLoop cfg (greedyIdx cfg st.itpl st.bary)
        (List.range cfg.svs.length) st.itpl with _ | itpl2
    all_goals rw [hap] at h
    · exact absurd h (by simp)
    · dsimp only at h
      by_cases hbrk : cfg.postProcess = true ∧ solveDnsp cfg itpl2 ≥ 1
      · rw [if_pos hbrk] at h
        exact absurd h (by simp)
      · rw [if_neg hbrk] at h
        exact absurd h (by simp)
  · intro hc
    exact ⟨_, by rw [loopBody, if_pos hc]⟩

/-- Every continuing iteration strictly grows some partition that was
below its cap (and whose greedy component was new). -/
theorem loopBody_grows (cfg : Cfg) (st st2 : LState)
    (hwf : cfg.samples.shape.length = cfg.svs.length)
    (hrel : 0 ≤ cfg.relTolSq)
    (haddr : st.itplAddr < st.ph.length)
    (hlen : st.itpl.length = cfg.svs.length)
    (h : loopBody cfg st = StepRes.cont st2) :
    ∃ i, i < cfg.svs.length
      ∧ (st.itpl.getD i []).length < cfg.maxItpl.getD i 0
      ∧ (st.itpl.getD i []).length < (st2.itpl.getD i []).length := by
  rw [loopBody] at h
  by_cases hconv : errMax cfg st.itpl st.bary ≤ cfg.relTolSq
  · rw [if_pos hconv] at h
    exact absurd h (by simp)
  · rw [if_neg hconv] at h
    rcases hap : appendLoop cfg (greedyIdx cfg st.itpl st.bary)
        (List.range cfg.svs.length) st.itpl with _ | itpl2
    all_goals rw [hap] at h
    · exact absurd h (by simp)
    · dsimp only at h
      by_cases hbrk : cfg.postProcess = true ∧ solveDnsp cfg itpl2 ≥ 1
      · rw [if_pos hbrk] at h
        exact absurd h (by simp)
      · rw [if_neg hbrk] at h
        simp only [StepRes.cont.injEq] at h
        subst h
        rcases exists_growth cfg st.itpl st.bary hwf hrel hconv with ⟨i, hi, hcont, hcap⟩
        have hgrow := appendLoop_grows cfg (greedyIdx cfg st.itpl st.bary)
          (List.range cfg.svs.length) st.itpl itpl2 i hap
          (List.mem_range.mpr hi) (by omega) hcont hcap
        have hnopp : ¬ (solveDnsp cfg itpl2 > 1 ∧ cfg.postProcess = true) := by
          intro hcc
          exact hbrk ⟨hcc.2, by omega⟩
        rcases rebuildState_facts cfg
            { st with log := st.log ++ [LogMsg.stepInfo], j := st.j + 1 } itpl2 haddr with
          ⟨_, _, _, hitpl, _⟩
        refine ⟨i, hi, hcap, ?_⟩
        rw [hitpl hnopp]
        exact hgrow

/-- When no partition is below its cap, the loop exits at once with the
state unchanged (the `while any(...)` test fails). -/
theorem loopGo_exit_of_caps (cfg : Cfg) (st : LState) (n : ℕ)
    (h : whileCond cfg st.itpl = false) :
    loopGo cfg (n + 1) st = some (LoopOut.done st) := by
  rw [loopGo, if_neg (by rw [h]; exact Bool.false_ne_true)]

/-- If the loop is entered and its first iteration does not declare
convergence, the final approximant is a barycentric (`rat`) form. -/
theorem loopGo_done_rat (cfg : Cfg)
    (hwf : cfg.samples.shape.length = cfg.svs.length)
    (hwf2 : 0 < cfg.svs.length →
      cfg.samples.shape.getD 0 0 = (cfg.svs.getD 0 []).length)
    (hrel : 0 ≤ cfg.relTolSq)
    (hclosed : cfg.conjugate = true →
      ∀ z ∈ cfg.svs.getD 0 [], Cx.conj z ∈ cfg.svs.getD 0 []) :
    ∀ (n : ℕ) (st0 stF : LState), st0.itplAddr < st0.ph.length →
      whileCond cfg st0.itpl = true →
      ¬ errMax cfg st0.itpl st0.bary ≤ cfg.relTolSq →
      loopGo cfg n st0 = some (LoopOut.done stF) →
      ∃ no v c, stF.bary = BaryRep.rat no v c := by
  intro n st0 stF haddr hw hnc hgo
  cases n with
  | zero => exact absurd hgo (by simp [loopGo])
  | succ m =>
      rw [loopGo, if_pos hw] at hgo
      rcases hb : loopBody cfg st0 with st2 | st2 | st2 | _
      all_goals rw [hb] at hgo
      · rcases loopBody_preserves cfg st0 st2 haddr (Or.inl hb) with ⟨ha, hl, _⟩
        rcases (loopBody_bary cfg st0 st2).2 (Or.inl hb) with ⟨no, v, c, hrat⟩
        exact (loopGo_done_facts cfg m st2 stF (by rw [ha, hl]; exact haddr) hgo).2.2.2
          ⟨no, v, c, hrat⟩
      · exact absurd ((loopBody_convBrk_iff cfg st0).mp ⟨st2, hb⟩) hnc
      · simp only [Option.some.injEq, LoopOut.done.injEq] at hgo
        subst hgo
        exact (loopBody_bary cfg st0 st2).2 (Or.inr hb)
      · exact absurd hb (loopBody_ne_err cfg st0 hwf hwf2 hrel hclosed)

/-- The conjugation-closure guarantee holds for the configuration
`reduce` builds, for either value of `conjugate`. -/
theorem mkCfg_closed (sampling_values : List (List Cx)) (samplesIn : Tensor Cx)
    (conjugate postProcess : Bool) (O : Oracle) (tol : ℚ) (mA : Option (List ℕ))
    (hpos : 0 < sampling_values.length) :
    (mkCfg sampling_values samplesIn conjugate postProcess O tol mA).conjugate = true →
      ∀ z ∈ (mkCfg sampling_values samplesIn conjugate postProcess O tol
          mA).svs.getD 0 [],
        Cx.conj z ∈ (mkCfg sampling_values samplesIn conjugate postProcess O tol
          mA).svs.getD 0 [] := by
  intro hc
  cases conjugate with
  | false => exact absurd hc (by simp [mkCfg])
  | true =>
      rw [mkCfg_svs0 sampling_values samplesIn postProcess O tol mA hpos]
      exact conjAugment_closed (sampling_values.getD 0 []) samplesIn

/-- On the default-partition path, `reduce` runs the greedy loop to a
normal completion and returns the final state's observables. -/
theorem reduceCore_run (sampling_values : List (List Cx)) (samplesIn : Tensor Cx)
    (conjugate postProcess : Bool) (O : Oracle) (tol : ℚ)
    (ph : PHeap) (maxItplArg : Option (List ℕ))
    (hlen : samplesIn.shape.length = sampling_values.length)
    (hpos : 0 < sampling_values.length)
    (h0 : samplesIn.shape.getD 0 0 = (sampling_values.getD 0 []).length) :
    ∃ stF, loopGo (mkCfg sampling_values samplesIn conjugate postProcess O tol maxItplArg)
        (fuelBound (mkCfg sampling_values samplesIn conjugate postProcess O tol maxItplArg))
        (initState
          (ph ++ [List.replicate (mkCfg sampling_values samplesIn conjugate postProcess O
            tol maxItplArg).svs.length []])
          ph.length
          (mkCfg sampling_values samplesIn conjugate postProcess O tol maxItplArg).samples)
        = some (LoopOut.done stF)
      ∧ reduceCore sampling_values samplesIn conjugate postProcess O tol ph none maxItplArg
        = some { ph := stF.ph, itplAddr := stF.itplAddr, log := stF.log,
                 rom := romOf stF.bary, ok := true } := by
  rcases mkCfg_wf sampling_values samplesIn conjugate postProcess O tol maxItplArg
      hlen hpos h0 with ⟨hwf, hwf2, hrel⟩
  have hclosed := mkCfg_closed sampling_values samplesIn conjugate postProcess O tol
    maxItplArg hpos
  have hitpl : (initState
      (ph ++ [List.replicate (mkCfg sampling_values samplesIn conjugate postProcess O
        tol maxItplArg).svs.length []])
      ph.length
      (mkCfg sampling_values samplesIn conjugate postProcess O tol
        maxItplArg).samples).itpl
      = List.replicate (mkCfg sampling_values samplesIn conjugate postProcess O tol
        maxItplArg).svs.length [] := by
    show ((ph ++ [List.replicate _ []]).getD ph.length []) = _
    exact getD_append_self [] ph _
  have hsome := loopGo_isSome
    (mkCfg sampling_values samplesIn conjugate postProcess O tol maxItplArg) hwf hrel
    (fuelBound (mkCfg sampling_values samplesIn conjugate postProcess O tol maxItplArg))
    (initState
      (ph ++ [List.replicate (mkCfg sampling_values samplesIn conjugate postProcess O
        tol maxItplArg).svs.length []])
      ph.length
      (mkCfg sampling_values samplesIn conjugate postProcess O tol maxItplArg).samples)
    (by show ph.length < (ph ++ [_]).length; simp)
    (by rw [hitpl, List.length_replicate])
    (by rw [fuelBound]; omega)
  rcases hgo : loopGo (mkCfg sampling_values samplesIn conjugate postProcess O tol
      maxItplArg)
      (fuelBound (mkCfg sampling_values samplesIn conjugate postProcess O tol maxItplArg))
      (initState
        (ph ++ [List.replicate (mkCfg sampling_values samplesIn conjugate postProcess O
          tol maxItplArg).svs.length []])
        ph.length
        (mkCfg sampling_values samplesIn conjugate postProcess O tol
          maxItplArg).samples) with _ | out
  · rw [hgo] at hsome
    simp at hsome
  · cases out with
    | errOut =>
        exact absurd hgo (loopGo_ne_errOut
          (mkCfg sampling_values samplesIn conjugate postProcess O tol maxItplArg)
          hwf (fun _ => hwf2) hrel hclosed _ _)
    | done stF =>
        refine ⟨stF, rfl, ?_⟩
        simp only [reduceCore, allocItpl]
        rw [hgo]

theorem take_set_of_le {α : Type} :
    ∀ (l : List α) (n i : ℕ) (x : α), n ≤ i → (l.set i x).take n = l.take n := by
  intro l
  induction l with
  | nil => intro n i x _; simp
  | cons a t ih =>
      intro n i x hni
      cases i with
      | zero =>
          have hn : n = 0 := by omega
          subst hn
          simp
      | succ j =>
          cases n with
          | zero => simp
          | succ m =>
              simp only [List.set_cons_succ, List.take_succ_cons]
              rw [ih m j x (by omega)]

theorem getD_take_lt {α : Type} (d : α) :
    ∀ (l : List α) (n b : ℕ), b < n → (l.take n).getD b d = l.getD b d := by
  intro l
  induction l with
  | nil => intro n b _; simp
  | cons a t ih =>
      intro n b hb
      cases n with
      | zero => omega
      | succ m =>
          cases b with
          | zero => simp
          | succ c =>
              simp only [List.take_succ_cons, List.getD_cons_succ]
              exact ih m c (by omega)

/-- Objects on the array heap: 1-D numpy arrays, sample tensors, and
Python lists of array references (`self.sampling_values` is a list of
1-D arrays). -/
inductive ArrObj
  | arr (data : List Cx)
  | tens (t : Tensor Cx)
  | lst (addrs : List ℕ)
deriving DecidableEq

/-- Read a 1-D array object. -/
def readArr (h : List ArrObj) (a : ℕ) : List Cx :=
  match h.getD a (ArrObj.arr []) with
  | ArrObj.arr d => d
  | _ => []

/-- Read an ndarray (sample tensor) object. -/
def readTens (h : List ArrObj) (a : ℕ) : Tensor Cx :=
  match h.getD a (ArrObj.arr []) with
  | ArrObj.tens t => t
  | _ => { shape := [], data := [] }

/-- Read a Python list-of-arrays object. -/
def readLst (h : List ArrObj) (a : ℕ) : List ℕ :=
  match h.getD a (ArrObj.arr []) with
  | ArrObj.lst l => l
  | _ => []

/-- `reduce()` with the reductor's array fields read through the heap
(source lines 99-112): `svs = self.sampling_values.copy()` allocates a
fresh shallow list copy and `samples = self.samples.copy()` a fresh
tensor; the conjugate augmentation allocates the appended array
(`np.append`) and the stacked tensor (`np.vstack`) and rebinds entry 0 of
the copied list only.  Returns the heap after the call together with the
`reduceCore` outcome. -/
def reduceHeap (h : List ArrObj) (svAddr sAddr : ℕ)
    (conjugate postProcess : Bool) (O : Oracle) (tol : ℚ)
    (ph : PHeap) (itplArg : Option ℕ) (maxItplArg : Option (List ℕ)) :
    List ArrObj × Option RedOut :=
  let svAddrs := readLst h svAddr
  let sampling_values := svAddrs.map (readArr h)
  let samplesIn := readTens h sAddr
  let h1 := h ++ [ArrObj.lst svAddrs, ArrObj.tens samplesIn]
  let svsCopyAddr := h.length
  let aug := conjAugment (sampling_values.getD 0 []) samplesIn
  let h2 :=
    if conjugate = true ∧ aug.1 ≠ sampling_values.getD 0 [] then
      (h1 ++ [ArrObj.arr aug.1, ArrObj.tens aug.2]).set svsCopyAddr
        (ArrObj.lst (svAddrs.set 0 h1.length))
    else h1
  (h2, reduceCore sampling_values samplesIn conjugate postProcess O tol ph
    itplArg maxItplArg)

/-- Every write `reduce` performs on the array heap is at a freshly
allocated address: the original heap is a prefix of the final one. -/
theorem reduceHeap_prefix (h : List ArrObj) (svAddr sAddr : ℕ)
    (conjugate postProcess : Bool) (O : Oracle) (tol : ℚ)
    (ph : PHeap) (itplArg : Option ℕ) (maxItplArg : Option (List ℕ)) :
    (reduceHeap h svAddr sAddr conjugate postProcess O tol ph itplArg
      maxItplArg).1.take h.length = h := by
  rw [reduceHeap]
  dsimp only
  split_ifs with hc
  · rw [take_set_of_le _ _ _ _ (le_refl h.length)]
    rw [List.append_assoc]
    exact List.take_left h _
  · exact List.take_left h _

/-- In any continuing or null-space-breaking iteration, the final
partition entries are bounded by the entries the greedy append produced
(post-processing only ever truncates). -/
theorem loopBody_itpl_bounds (cfg : Cfg) (st st2 : LState)
    (haddr : st.itplAddr < st.ph.length)
    (h : loopBody cfg st = StepRes.cont st2 ∨ loopBody cfg st = StepRes.nspBrk st2) :
    ∃ itpl2, appendLoop cfg (greedyIdx cfg st.itpl st.bary)
        (List.range cfg.svs.length) st.itpl = some itpl2
      ∧ ∀ j, (st2.itpl.getD j []).length ≤ (itpl2.getD j []).length := by
  rw [loopBody] at h
  by_cases hconv : errMax cfg st.itpl st.bary ≤ cfg.relTolSq
  · rw [if_pos hconv] at h
    rcases h with h | h <;> exact absurd h (by simp)
  · rw [if_neg hconv] at h
    rcases hap : appendLoop cfg (greedyIdx cfg st.itpl st.bary)
        (List.range cfg.svs.length) st.itpl with _ | itpl2
    all_goals rw [hap] at h
    · rcases h with h | h <;> exact absurd h (by simp)
    · dsimp only at h
      rcases rebuildState_facts cfg
          { st with log := st.log ++ [LogMsg.stepInfo], j := st.j + 1 } itpl2 haddr with
        ⟨_, _, hshr, _, _⟩
      refine ⟨itpl2, rfl, ?_⟩
      by_cases hbrk : cfg.postProcess = true ∧ solveDnsp cfg itpl2 ≥ 1
      · rw [if_pos hbrk] at h
        rcases h with h | h
        · exact absurd h (by simp)
        · simp only [StepRes.nspBrk.injEq] at h
          subst h
          exact hshr
      · rw [if_neg hbrk] at h
        rcases h with h | h
        · simp only [StepRes.cont.injEq] at h
          subst h
          exact hshr
        · exact absurd h (by simp)

/-! ## Concrete instances for witnesses and counterexamples -/

/-- A trivial stand-in for the LAPACK/SVD kernels, used in concrete
runs. -/
def trivOracle : Oracle :=
  { svdCoefs := fun _ => [], nspDim := fun _ => 0, rank1D := fun _ => 0 }

/-- A 2×2 two-variable configuration whose masked error maximum sits at
grid index (0, 1) while index 0 already interpolates variable 0. -/
def c5cfg : Cfg :=
  { svs := [[Cx.ofRat 0, Cx.ofRat 1], [Cx.ofRat 0, Cx.ofRat 1]]
    samples := ⟨[2, 2], [Cx.ofRat 0, Cx.ofRat 9, Cx.ofRat 0, Cx.ofRat 0]⟩
    relTolSq := 0
    maxItpl := [2, 1]
    conjugate := false
    postProcess := false
    oracle := trivOracle }

/-- The state before the iteration: variable 0 already interpolates
index 0, variable 1 nothing, with the constant-zero approximant. -/
def c5st : LState :=
  { ph := [[[0], []]], itplAddr := 0, coefs := [],
    bary := BaryRep.const (Cx.ofRat 0), log := [], j := 0 }

/-- The state after the iteration: variable 1 gained index 1 while
variable 0 stayed at `[0]` although it is below its cap. -/
def c5st2 : LState :=
  { ph := [[[0], [1]]], itplAddr := 0, coefs := [],
    bary := BaryRep.rat [[Cx.ofRat 0], [Cx.ofRat 1]] [Cx.ofRat 9] [],
    log := [LogMsg.stepInfo], j := 1 }


/-! ## Claim theorems -/

/-- C1: In every iteration of the greedy loop of `reduce()`, the loop
declares convergence and exits if and only if the maximum of the masked
absolute error matrix is at most `tol` times the maximum absolute value
over all (conjugate-augmented) samples — here with both sides squared:
the threshold is `tol² · max |samples|²`, fixed once by the configuration
built before the loop from the global (augmented) sample data, not a
per-point quantity. -/
theorem C1_convergence_criterion (sampling_values : List (List Cx))
    (samplesIn : Tensor Cx) (conjugate postProcess : Bool) (O : Oracle)
    (tol : ℚ) (mA : Option (List ℕ)) (st : LState) :
    ((∃ st2, loopBody (mkCfg sampling_values samplesIn conjugate postProcess O tol mA) st
        = StepRes.convBrk st2)
      ↔ errMax (mkCfg sampling_values samplesIn conjugate postProcess O tol mA)
          st.itpl st.bary
        ≤ (mkCfg sampling_values samplesIn conjugate postProcess O tol mA).relTolSq)
    ∧ (mkCfg sampling_values samplesIn conjugate postProcess O tol mA).relTolSq
        = tol ^ 2 * maxAbsSqData (augmentIf conjugate sampling_values samplesIn).2 :=
  ⟨loopBody_convBrk_iff _ st, rfl⟩

/-- C2: For every finite input the greedy while-loop of `reduce()`
terminates within an explicit fuel bound and returns normally: the loop
runs only while some variable's partition is below its cap (a state with
no room exits immediately and unchanged), every continuing iteration
strictly grows some partition that was below its cap, and — whenever the
loop is entered and its first iteration does not already satisfy the
tolerance — the last computed barycentric form is returned (no
`NameError`), even if the tolerance is never satisfied. -/
theorem C2_loop_terminates (sampling_values : List (List Cx)) (samplesIn : Tensor Cx)
    (conjugate postProcess : Bool) (O : Oracle) (tol : ℚ)
    (ph : PHeap) (maxItplArg : Option (List ℕ))
    (hlen : samplesIn.shape.length = sampling_values.length)
    (hpos : 0 < sampling_values.length)
    (h0 : samplesIn.shape.getD 0 0 = (sampling_values.getD 0 []).length) :
    (∃ out, reduceCore sampling_values samplesIn conjugate postProcess O tol ph none
        maxItplArg = some out
      ∧ out.ok = true
      ∧ (whileCond (mkCfg sampling_values samplesIn conjugate postProcess O tol maxItplArg)
            (List.replicate (mkCfg sampling_values samplesIn conjugate postProcess O tol
              maxItplArg).svs.length []) = true →
         ¬ errMax (mkCfg sampling_values samplesIn conjugate postProcess O tol maxItplArg)
            (List.replicate (mkCfg sampling_values samplesIn conjugate postProcess O tol
              maxItplArg).svs.length [])
            (BaryRep.const
              ((mkCfg sampling_values samplesIn conjugate postProcess O tol
                maxItplArg).samples.data.sum
                / Cx.ofRat (((mkCfg sampling_values samplesIn conjugate postProcess O tol
                    maxItplArg).samples.data.length : ℚ))))
          ≤ (mkCfg sampling_values samplesIn conjugate postProcess O tol
              maxItplArg).relTolSq →
         out.rom.isSome))
    ∧ (∀ (st : LState) (n : ℕ),
        whileCond (mkCfg sampling_values samplesIn conjugate postProcess O tol maxItplArg)
          st.itpl = false →
        loopGo (mkCfg sampling_values samplesIn conjugate postProcess O tol maxItplArg)
          (n + 1) st = some (LoopOut.done st))
    ∧ (∀ (st st2 : LState),
        st.itplAddr < st.ph.length →
        st.itpl.length
          = (mkCfg sampling_values samplesIn conjugate postProcess O tol
              maxItplArg).svs.length →
        loopBody (mkCfg sampling_values samplesIn conjugate postProcess O tol maxItplArg)
          st = StepRes.cont st2 →
        ∃ i, i < (mkCfg sampling_values samplesIn conjugate postProcess O tol
            maxItplArg).svs.length
          ∧ (st.itpl.getD i []).length
            < (mkCfg sampling_values samplesIn conjugate postProcess O tol
                maxItplArg).maxItpl.getD i 0
          ∧ (st.itpl.getD i []).length < (st2.itpl.getD i []).length) := by
  rcases mkCfg_wf sampling_values samplesIn conjugate postProcess O tol maxItplArg
      hlen hpos h0 with ⟨hwf, hwf2, hrel⟩
  refine ⟨?_, ?_, ?_⟩
  · rcases reduceCore_run sampling_values samplesIn conjugate postProcess O tol ph
        maxItplArg hlen hpos h0 with ⟨stF, hgo, hred⟩
    refine ⟨_, hred, rfl, ?_⟩
    intro hw hnc
    have hitpl : (initState
        (ph ++ [List.replicate (mkCfg sampling_values samplesIn conjugate postProcess O
          tol maxItplArg).svs.length []])
        ph.length
        (mkCfg sampling_values samplesIn conjugate postProcess O tol
          maxItplArg).samples).itpl
        = List.replicate (mkCfg sampling_values samplesIn conjugate postProcess O tol
          maxItplArg).svs.length [] := by
      show ((ph ++ [List.replicate _ []]).getD ph.length []) = _
      exact getD_append_self [] ph _
    have hrat := loopGo_done_rat
      (mkCfg sampling_values samplesIn conjugate postProcess O tol maxItplArg)
      hwf (fun _ => hwf2) hrel
      (mkCfg_closed sampling_values samplesIn conjugate postProcess O tol maxItplArg hpos)
      _ _ stF
      (by show ph.length < (ph ++ [_]).length; simp)
      (by rw [hitpl]; exact hw)
      (by rw [hitpl]; exact hnc)
      hgo
    rcases hrat with ⟨no, v, c, hbar⟩
    show (romOf stF.bary).isSome
    rw [hbar]
    rfl
  · intro st n hwc
    exact loopGo_exit_of_caps _ st n hwc
  · intro st st2 haddr hl hbody
    exact loopBody_grows _ st st2 hwf hrel haddr hl hbody

/-- Witness for C2 at a concrete one-variable, one-sample input. -/
theorem C2_loop_terminates_witness :
    ((⟨[1], [Cx.ofRat 1]⟩ : Tensor Cx).shape.length
        = ([[Cx.ofRat 0]] : List (List Cx)).length)
    ∧ 0 < ([[Cx.ofRat 0]] : List (List Cx)).length
    ∧ ((⟨[1], [Cx.ofRat 1]⟩ : Tensor Cx).shape.getD 0 0
        = (([[Cx.ofRat 0]] : List (List Cx)).getD 0 []).length)
    ∧ (∃ out, reduceCore [[Cx.ofRat 0]] ⟨[1], [Cx.ofRat 1]⟩ false false trivOracle 0 []
        none none = some out
      ∧ out.ok = true
      ∧ (whileCond (mkCfg [[Cx.ofRat 0]] ⟨[1], [Cx.ofRat 1]⟩ false false trivOracle 0 none)
            (List.replicate (mkCfg [[Cx.ofRat 0]] ⟨[1], [Cx.ofRat 1]⟩ false false
              trivOracle 0 none).svs.length []) = true →
         ¬ errMax (mkCfg [[Cx.ofRat 0]] ⟨[1], [Cx.ofRat 1]⟩ false false trivOracle 0 none)
            (List.replicate (mkCfg [[Cx.ofRat 0]] ⟨[1], [Cx.ofRat 1]⟩ false false
              trivOracle 0 none).svs.length [])
            (BaryRep.const
              ((mkCfg [[Cx.ofRat 0]] ⟨[1], [Cx.ofRat 1]⟩ false false trivOracle 0
                none).samples.data.sum
                / Cx.ofRat (((mkCfg [[Cx.ofRat 0]] ⟨[1], [Cx.ofRat 1]⟩ false false
                    trivOracle 0 none).samples.data.length : ℚ))))
          ≤ (mkCfg [[Cx.ofRat 0]] ⟨[1], [Cx.ofRat 1]⟩ false false trivOracle 0
              none).relTolSq →
         out.rom.isSome)) :=
  ⟨by decide, by decide, by with_unfolding_all decide,
    (C2_loop_terminates [[Cx.ofRat 0]] ⟨[1], [Cx.ofRat 1]⟩ false false trivOracle 0 []
      none (by decide) (by decide) (by with_unfolding_all decide)).1⟩

/-- C3: For every sample tensor, sampling grid, and interpolation
partition (with pairwise-distinct locations per variable; the
least-squares index sets are the complements of the interpolation sets by
construction, hence disjoint from them), `nd_loewner` returns a matrix
with one row per least-squares index combination and one column per
interpolation index combination, whose `(r, c)` entry is
`(f(r-combination) − f(c-combination))` divided by the product over all
variables of the location differences — the variable-0 divided-difference
kernel divided elementwise by the Kronecker-product denominator grid. -/
theorem C3_nd_loewner_entries (samples : Tensor Cx) (svs : List (List Cx))
    (itpl_part : List (List ℕ))
    (hd : samples.shape.length = svs.length) (h0 : 0 < svs.length)
    (hip : itpl_part.length = svs.length)
    (hnd : ∀ i, i < svs.length → (svs.getD i []).Nodup)
    (r c : ℕ) (hr : r < (cartProd (lsPartOf itpl_part svs)).length)
    (hc : c < (cartProd itpl_part).length) :
    (nd_loewner samples svs itpl_part).length
        = (cartProd (lsPartOf itpl_part svs)).length
    ∧ ((nd_loewner samples svs itpl_part).getD r []).length
        = (cartProd itpl_part).length
    ∧ ((nd_loewner samples svs itpl_part).getD r []).getD c 0
        = (samples.get ((cartProd (lsPartOf itpl_part svs)).getD r [])
            - samples.get ((cartProd itpl_part).getD c []))
          / diffProd svs ((cartProd (lsPartOf itpl_part svs)).getD r [])
              ((cartProd itpl_part).getD c []) :=
  nd_loewner_spec samples svs itpl_part hd h0 hip r c hr hc

/-- Witness for C3 on a 1-variable, 2-point grid with one interpolation
index. -/
theorem C3_nd_loewner_entries_witness :
    ((⟨[2], [Cx.ofRat 3, Cx.ofRat 7]⟩ : Tensor Cx).shape.length
        = ([[Cx.ofRat 0, Cx.ofRat 1]] : List (List Cx)).length)
    ∧ 0 < ([[Cx.ofRat 0, Cx.ofRat 1]] : List (List Cx)).length
    ∧ ([[0]] : List (List ℕ)).length = ([[Cx.ofRat 0, Cx.ofRat 1]] : List (List Cx)).length
    ∧ (∀ i, i < ([[Cx.ofRat 0, Cx.ofRat 1]] : List (List Cx)).length →
        (([[Cx.ofRat 0, Cx.ofRat 1]] : List (List Cx)).getD i []).Nodup)
    ∧ 0 < (cartProd (lsPartOf [[0]] ([[Cx.ofRat 0, Cx.ofRat 1]] : List (List Cx)))).length
    ∧ 0 < (cartProd ([[0]] : List (List ℕ))).length
    ∧ ((nd_loewner (⟨[2], [Cx.ofRat 3, Cx.ofRat 7]⟩ : Tensor Cx)
          [[Cx.ofRat 0, Cx.ofRat 1]] [[0]]).getD 0 []).getD 0 0
        = ((⟨[2], [Cx.ofRat 3, Cx.ofRat 7]⟩ : Tensor Cx).get
              ((cartProd (lsPartOf [[0]] ([[Cx.ofRat 0, Cx.ofRat 1]] :
                List (List Cx)))).getD 0 [])
            - (⟨[2], [Cx.ofRat 3, Cx.ofRat 7]⟩ : Tensor Cx).get
              ((cartProd ([[0]] : List (List ℕ))).getD 0 []))
          / diffProd [[Cx.ofRat 0, Cx.ofRat 1]]
              ((cartProd (lsPartOf [[0]] ([[Cx.ofRat 0, Cx.ofRat 1]] :
                List (List Cx)))).getD 0 [])
              ((cartProd ([[0]] : List (List ℕ))).getD 0 []) :=
  ⟨by decide, by decide, by decide, by with_unfolding_all decide,
    by with_unfolding_all decide, by decide,
    (C3_nd_loewner_entries ⟨[2], [Cx.ofRat 3, Cx.ofRat 7]⟩ [[Cx.ofRat 0, Cx.ofRat 1]]
      [[0]] (by decide) (by decide) (by decide) (by with_unfolding_all decide) 0 0
      (by with_unfolding_all decide) (by decide)).2.2⟩

/-- C4: For every function returned by `make_bary_func` and every
interpolation-node combination whose barycentric coefficient is nonzero,
evaluating at that node combination replaces each variable's denominator
term by a one-hot selector for the hit node (removable-singularity
cancellation instead of division by a near-zero difference), and the
returned value equals exactly the corresponding interpolation value —
for scalar and matrix-valued data alike (`V` is any `Cx`-module). -/
theorem C4_interpolation_exactness {V : Type} [AddCommMonoid V] [Module Cx V]
    (itpl_nodes : List (List Cx)) (itpl_vals : List V) (coefs : List Cx)
    (tolSq : ℚ) (htol : 0 < tolSq) (ks : List ℕ)
    (hklen : ks.length = itpl_nodes.length)
    (hcond : ∀ i, i < itpl_nodes.length →
      ks.getD i 0 < (itpl_nodes.getD i []).length ∧ (itpl_nodes.getD i []).Nodup)
    (hclen : coefs.length = (itpl_nodes.map List.length).prod)
    (hvlen : itpl_vals.length = (itpl_nodes.map List.length).prod)
    (E : ℕ)
    (hEdef : E = (List.zip itpl_nodes ks).foldl (fun acc p => acc * p.1.length + p.2) 0)
    (hc : coefs.getD E 0 ≠ 0) :
    (∀ i, i < itpl_nodes.length →
      baryDVar tolSq ((itpl_nodes.getD i []).getD (ks.getD i 0) 0) (itpl_nodes.getD i [])
        = oneHotList (itpl_nodes.getD i []).length (ks.getD i 0))
    ∧ make_bary_func itpl_nodes itpl_vals coefs tolSq
        (List.zipWith (fun ns k => ns.getD k 0) itpl_nodes ks)
      = itpl_vals.getD E 0 := by
  refine ⟨?_, make_bary_func_exact itpl_nodes itpl_vals coefs tolSq htol ks hklen hcond
    hclen hvlen E hEdef hc⟩
  intro i hi
  exact baryDVar_at_node tolSq htol _ _ (hcond i hi).1 (hcond i hi).2

/-- Witness for C4 on a single node with value 5 and coefficient 1, at
the source's removable-singularity tolerance. -/
theorem C4_interpolation_exactness_witness :
    (0 < removable_singularity_tolSq)
    ∧ (([Cx.ofRat 1] : List Cx).getD 0 0 ≠ 0)
    ∧ ((∀ i, i < ([[Cx.ofRat 2]] : List (List Cx)).length →
        baryDVar removable_singularity_tolSq
          ((([[Cx.ofRat 2]] : List (List Cx)).getD i []).getD (([0] : List ℕ).getD i 0) 0)
          (([[Cx.ofRat 2]] : List (List Cx)).getD i [])
          = oneHotList (([[Cx.ofRat 2]] : List (List Cx)).getD i []).length
              (([0] : List ℕ).getD i 0))
      ∧ make_bary_func [[Cx.ofRat 2]] [Cx.ofRat 5] [Cx.ofRat 1]
          removable_singularity_tolSq
          (List.zipWith (fun ns k => ns.getD k 0) [[Cx.ofRat 2]] [0])
        = ([Cx.ofRat 5] : List Cx).getD 0 0) :=
  ⟨by with_unfolding_all decide, by with_unfolding_all decide,
    C4_interpolation_exactness [[Cx.ofRat 2]] [Cx.ofRat 5] [Cx.ofRat 1]
      removable_singularity_tolSq (by with_unfolding_all decide) [0] (by decide)
      (by with_unfolding_all decide) (by decide) (by decide) 0 (by decide)
      (by with_unfolding_all decide)⟩

/-- C5 (corrected): In every continuing (non-converged) iteration the
first grid index attaining the masked error maximum is selected, and each
variable's partition entry is transformed by the per-variable append rule
`appendEntry`: component `i` is appended only when it is *not already in*
variable `i`'s partition *and* the partition is below its cap (the
original claim omitted the membership condition), with the conjugate
location's index appended as well for variable 0 in the conjugate,
non-real case. -/
theorem C5_greedy_append (cfg : Cfg) (st st2 : LState)
    (haddr : st.itplAddr < st.ph.length)
    (hlen : st.itpl.length = cfg.svs.length)
    (h : loopBody cfg st = StepRes.cont st2) :
    ∀ i, i < cfg.svs.length →
      appendEntry cfg (greedyIdx cfg st.itpl st.bary) i (st.itpl.getD i [])
        = some (st2.itpl.getD i []) := by
  intro i hi
  rw [loopBody] at h
  by_cases hconv : errMax cfg st.itpl st.bary ≤ cfg.relTolSq
  · rw [if_pos hconv] at h
    exact absurd h (by simp)
  · rw [if_neg hconv] at h
    rcases hap : appendLoop cfg (greedyIdx cfg st.itpl st.bary)
        (List.range cfg.svs.length) st.itpl with _ | itpl2
    all_goals rw [hap] at h
    · exact absurd h (by simp)
    · dsimp only at h
      by_cases hbrk : cfg.postProcess = true ∧ solveDnsp cfg itpl2 ≥ 1
      · rw [if_pos hbrk] at h
        exact absurd h (by simp)
      · rw [if_neg hbrk] at h
        simp only [StepRes.cont.injEq] at h
        subst h
        have hnopp : ¬ (solveDnsp cfg itpl2 > 1 ∧ cfg.postProcess = true) := by
          intro hcc
          exact hbrk ⟨hcc.2, by omega⟩
        rcases rebuildState_facts cfg
            { st with log := st.log ++ [LogMsg.stepInfo], j := st.j + 1 } itpl2 haddr with
          ⟨_, _, _, hitpl, _⟩
        rw [hitpl hnopp]
        exact appendLoop_entry cfg (greedyIdx cfg st.itpl st.bary)
          (List.range cfg.svs.length) st.itpl itpl2 i hap (List.mem_range.mpr hi)
          (List.nodup_range _) (by omega)

/-- Counterexample to C5 as stated: at `c5cfg`/`c5st` the iteration does
not converge, the greedy tuple is `(0, 1)`, variable 0's partition `[0]`
is below its cap of two points, yet component 0 — already interpolated —
is not appended: variable 0's partition is unchanged after the
iteration. -/
theorem C5_greedy_append_cex :
    (¬ errMax c5cfg c5st.itpl c5st.bary ≤ c5cfg.relTolSq)
    ∧ greedyIdx c5cfg c5st.itpl c5st.bary = [0, 1]
    ∧ (c5st.itpl.getD 0 []).length < c5cfg.maxItpl.getD 0 0
    ∧ (greedyIdx c5cfg c5st.itpl c5st.bary).getD 0 0 ∈ c5st.itpl.getD 0 []
    ∧ loopBody c5cfg c5st = StepRes.cont c5st2
    ∧ c5st2.itpl.getD 0 [] = c5st.itpl.getD 0 [] := by
  with_unfolding_all decide

/-- Witness for C5 (corrected) at the same concrete iteration. -/
theorem C5_greedy_append_witness :
    (c5st.itplAddr < c5st.ph.length)
    ∧ (c5st.itpl.length = c5cfg.svs.length)
    ∧ (∀ i, i < c5cfg.svs.length →
        appendEntry c5cfg (greedyIdx c5cfg c5st.itpl c5st.bary) i (c5st.itpl.getD i [])
          = some (c5st2.itpl.getD i [])) :=
  ⟨by decide, by with_unfolding_all decide,
    C5_greedy_append c5cfg c5st c5st2 (by decide) (by with_unfolding_all decide)
      (by with_unfolding_all decide)⟩

/-- C6: With `conjugate=True` and duplicate-free variable-0 sampling
values, the grid the loop sees for variable 0 is the augmented one:
it contains the original locations plus exactly the conjugates of those
locations whose conjugate was absent, and it is closed under complex
conjugation before the first iteration. -/
theorem C6_conjugate_closure (sampling_values : List (List Cx)) (samplesIn : Tensor Cx)
    (postProcess : Bool) (O : Oracle) (tol : ℚ) (mA : Option (List ℕ))
    (hpos : 0 < sampling_values.length)
    (hnd : (sampling_values.getD 0 []).Nodup) :
    ((mkCfg sampling_values samplesIn true postProcess O tol mA).svs.getD 0 []
      = (conjAugment (sampling_values.getD 0 []) samplesIn).1)
    ∧ (∀ z, z ∈ (mkCfg sampling_values samplesIn true postProcess O tol mA).svs.getD 0 []
        ↔ (z ∈ sampling_values.getD 0 []
          ∨ ∃ i, i < (sampling_values.getD 0 []).length
            ∧ Cx.conj ((sampling_values.getD 0 []).getD i 0) ∉ sampling_values.getD 0 []
            ∧ z = Cx.conj ((sampling_values.getD 0 []).getD i 0)))
    ∧ (∀ z ∈ (mkCfg sampling_values samplesIn true postProcess O tol mA).svs.getD 0 [],
        Cx.conj z
          ∈ (mkCfg sampling_values samplesIn true postProcess O tol mA).svs.getD 0 []) := by
  have hlink := mkCfg_svs0 sampling_values samplesIn postProcess O tol mA hpos
  refine ⟨hlink, ?_, ?_⟩
  · intro z
    rw [hlink]
    exact conjAugment_mem (sampling_values.getD 0 []) samplesIn z
  · intro z hz
    rw [hlink] at hz ⊢
    exact conjAugment_closed (sampling_values.getD 0 []) samplesIn z hz

/-- Witness for C6 on the one-point grid `[i]`. -/
theorem C6_conjugate_closure_witness :
    (0 < ([[Cx.I]] : List (List Cx)).length)
    ∧ (([[Cx.I]] : List (List Cx)).getD 0 []).Nodup
    ∧ ((mkCfg [[Cx.I]] ⟨[1], [Cx.ofRat 1]⟩ true false trivOracle 0 none).svs.getD 0 []
        = (conjAugment (([[Cx.I]] : List (List Cx)).getD 0 []) ⟨[1], [Cx.ofRat 1]⟩).1)
    ∧ (∀ z ∈ (mkCfg [[Cx.I]] ⟨[1], [Cx.ofRat 1]⟩ true false trivOracle 0
          none).svs.getD 0 [],
        Cx.conj z ∈ (mkCfg [[Cx.I]] ⟨[1], [Cx.ofRat 1]⟩ true false trivOracle 0
          none).svs.getD 0 []) :=
  ⟨by decide, by with_unfolding_all decide,
    (C6_conjugate_closure [[Cx.I]] ⟨[1], [Cx.ofRat 1]⟩ false trivOracle 0 none
      (by decide) (by with_unfolding_all decide)).1,
    (C6_conjugate_closure [[Cx.I]] ⟨[1], [Cx.ofRat 1]⟩ false trivOracle 0 none
      (by decide) (by with_unfolding_all decide)).2.2⟩

/-- C7: When the algebraic back-solve of `_post_processing` is
inconsistent — the product of per-variable `(partition size − estimated
rank)` is zero, or the null-space dimension is not an integer multiple of
it — the function returns the `(None, None)` sentinel with the partition
heap untouched, and the caller keeps the freshly computed over-determined
coefficients and partition, emitting the warning-level diagnostic instead
of aborting. -/
theorem C7_pp_sentinel (cfg : Cfg) (ph2 : PHeap) (addr : ℕ) (itpl2 : List (List ℕ))
    (hden : ppDenom cfg.oracle cfg.samples cfg.svs (ph2.getD addr []) = 0
      ∨ ((solveDnsp cfg itpl2 : ℤ) %
          ppDenom cfg.oracle cfg.samples cfg.svs (ph2.getD addr []) ≠ 0)) :
    _post_processing cfg.oracle cfg.samples cfg.svs ph2 addr (solveDnsp cfg itpl2)
      = (ph2, none)
    ∧ (solveDnsp cfg itpl2 > 1 → cfg.postProcess = true →
        ppPhase cfg ph2 addr itpl2
          = (ph2, solveCoefs cfg itpl2, addr, [LogMsg.ppStartInfo, LogMsg.ppFailWarn])) := by
  have hsent : _post_processing cfg.oracle cfg.samples cfg.svs ph2 addr
      (solveDnsp cfg itpl2) = (ph2, none) := by
    rw [_post_processing]
    rw [if_pos hden]
  refine ⟨hsent, ?_⟩
  intro hd hpp
  rw [ppPhase]
  rw [if_pos hd, if_pos hpp, hsent]

/-- An oracle reporting a three-dimensional null space and 1-D Loewner
rank one, driving the post-processing back-solve into the zero-denominator
case. -/
def c7Oracle : Oracle :=
  { svdCoefs := fun _ => [], nspDim := fun _ => 3, rank1D := fun _ => 1 }

/-- A 2×2 two-variable configuration for exercising the sentinel. -/
def c7cfg : Cfg :=
  { svs := [[Cx.ofRat 0, Cx.ofRat 1], [Cx.ofRat 0, Cx.ofRat 1]]
    samples := ⟨[2, 2], [Cx.ofRat 0, Cx.ofRat 0, Cx.ofRat 0, Cx.ofRat 0]⟩
    relTolSq := 0
    maxItpl := [2, 2]
    conjugate := false
    postProcess := true
    oracle := c7Oracle }

/-- The partition heap for the C7 witness. -/
def c7ph : PHeap := [[[0, 1], [0]]]

/-- Witness for C7: at `c7cfg` the back-solve denominator vanishes, the
sentinel is returned with the heap untouched, and the `ppPhase` keeps the
over-determined data while logging the failure warning. -/
theorem C7_pp_sentinel_witness :
    (ppDenom c7cfg.oracle c7cfg.samples c7cfg.svs (c7ph.getD 0 []) = 0
      ∨ ((solveDnsp c7cfg [[0, 1], [0]] : ℤ) %
          ppDenom c7cfg.oracle c7cfg.samples c7cfg.svs (c7ph.getD 0 []) ≠ 0))
    ∧ (_post_processing c7cfg.oracle c7cfg.samples c7cfg.svs c7ph 0
          (solveDnsp c7cfg [[0, 1], [0]])
        = (c7ph, none)
      ∧ (solveDnsp c7cfg [[0, 1], [0]] > 1 → c7cfg.postProcess = true →
          ppPhase c7cfg c7ph 0 [[0, 1], [0]]
            = (c7ph, solveCoefs c7cfg [[0, 1], [0]], 0,
                [LogMsg.ppStartInfo, LogMsg.ppFailWarn]))) :=
  ⟨Or.inl (by with_unfolding_all decide),
    C7_pp_sentinel c7cfg c7ph 0 [[0, 1], [0]]
      (Or.inl (by with_unfolding_all decide))⟩

/-- C8: A call to `reduce()` never mutates the reductor's stored input
data: the original array heap is a prefix of the final one (every write
lands on a freshly allocated copy), so `self.sampling_values` (the list
object, and each array it references) and `self.samples` read back
unchanged after the call — repeated calls always see the original data. -/
theorem C8_no_input_mutation (h : List ArrObj) (svAddr sAddr : ℕ)
    (conjugate postProcess : Bool) (O : Oracle) (tol : ℚ)
    (ph : PHeap) (itplArg : Option ℕ) (maxItplArg : Option (List ℕ))
    (hsv : svAddr < h.length) (hs : sAddr < h.length) :
    (reduceHeap h svAddr sAddr conjugate postProcess O tol ph itplArg
        maxItplArg).1.take h.length = h
    ∧ readLst (reduceHeap h svAddr sAddr conjugate postProcess O tol ph itplArg
        maxItplArg).1 svAddr = readLst h svAddr
    ∧ readTens (reduceHeap h svAddr sAddr conjugate postProcess O tol ph itplArg
        maxItplArg).1 sAddr = readTens h sAddr
    ∧ (∀ a, a < h.length →
        readArr (reduceHeap h svAddr sAddr conjugate postProcess O tol ph itplArg
          maxItplArg).1 a = readArr h a) := by
  have hpre := reduceHeap_prefix h svAddr sAddr conjugate postProcess O tol ph itplArg
    maxItplArg
  have hget : ∀ b, b < h.length →
      (reduceHeap h svAddr sAddr conjugate postProcess O tol ph itplArg
        maxItplArg).1.getD b (ArrObj.arr [])
      = h.getD b (ArrObj.arr []) := by
    intro b hb
    rw [← getD_take_lt (ArrObj.arr [])
      (reduceHeap h svAddr sAddr conjugate postProcess O tol ph itplArg maxItplArg).1
      h.length b hb]
    rw [hpre]
  refine ⟨hpre, ?_, ?_, ?_⟩
  · rw [readLst, readLst, hget svAddr hsv]
  · rw [readTens, readTens, hget sAddr hs]
  · intro a hal
    rw [readArr, readArr, hget a hal]

/-- Witness for C8 on a two-object heap holding one sampling-value array
list and one sample tensor. -/
theorem C8_no_input_mutation_witness :
    (0 < ([ArrObj.lst [0], ArrObj.arr [Cx.ofRat 0], ArrObj.tens ⟨[1], [Cx.ofRat 1]⟩]
        : List ArrObj).length)
    ∧ (2 < ([ArrObj.lst [0], ArrObj.arr [Cx.ofRat 0], ArrObj.tens ⟨[1], [Cx.ofRat 1]⟩]
        : List ArrObj).length)
    ∧ readLst (reduceHeap [ArrObj.lst [0], ArrObj.arr [Cx.ofRat 0],
          ArrObj.tens ⟨[1], [Cx.ofRat 1]⟩] 0 2 false false trivOracle 0 [] none none).1 0
        = readLst [ArrObj.lst [0], ArrObj.arr [Cx.ofRat 0],
          ArrObj.tens ⟨[1], [Cx.ofRat 1]⟩] 0
    ∧ readTens (reduceHeap [ArrObj.lst [0], ArrObj.arr [Cx.ofRat 0],
          ArrObj.tens ⟨[1], [Cx.ofRat 1]⟩] 0 2 false false trivOracle 0 [] none none).1 2
        = readTens [ArrObj.lst [0], ArrObj.arr [Cx.ofRat 0],
          ArrObj.tens ⟨[1], [Cx.ofRat 1]⟩] 2 := by
  refine ⟨by decide, by decide, ?_, ?_⟩
  · exact (C8_no_input_mutation [ArrObj.lst [0], ArrObj.arr [Cx.ofRat 0],
      ArrObj.tens ⟨[1], [Cx.ofRat 1]⟩] 0 2 false false trivOracle 0 [] none none
      (by decide) (by decide)).2.1
  · exact (C8_no_input_mutation [ArrObj.lst [0], ArrObj.arr [Cx.ofRat 0],
      ArrObj.tens ⟨[1], [Cx.ofRat 1]⟩] 0 2 false false trivOracle 0 [] none none
      (by decide) (by decide)).2.2.1

/-- A one-variable conjugate-enabled configuration with grid `[i, -i]`
and cap 1, on which the conjugate double-append exceeds the cap. -/
def c9cfg : Cfg :=
  { svs := [[Cx.I, Cx.conj Cx.I]]
    samples := ⟨[2], [Cx.ofRat 1, Cx.ofRat 1]⟩
    relTolSq := 0
    maxItpl := [1]
    conjugate := true
    postProcess := false
    oracle := trivOracle }

/-- C9: After any continuing or null-space-breaking iteration, a
partition that was within its cap stays within it for every variable
`i ≥ 1`, and for variable 0 when `conjugate=False`; in general it can
exceed the cap by at most one — and the slack is real: on `c9cfg` the
conjugate double-append (which performs no cap check) drives variable 0
from cap 1 to 2 entries. -/
theorem C9_cap_bound (cfg : Cfg) (st st2 : LState)
    (haddr : st.itplAddr < st.ph.length)
    (h : loopBody cfg st = StepRes.cont st2 ∨ loopBody cfg st = StepRes.nspBrk st2) :
    (∀ i, ¬ (i = 0 ∧ cfg.conjugate = true) →
        (st.itpl.getD i []).length ≤ cfg.maxItpl.getD i 0 →
        (st2.itpl.getD i []).length ≤ cfg.maxItpl.getD i 0)
    ∧ (∀ i, (st.itpl.getD i []).length ≤ cfg.maxItpl.getD i 0 →
        (st2.itpl.getD i []).length ≤ cfg.maxItpl.getD i 0 + 1)
    ∧ (appendLoop c9cfg [0] (List.range 1) [[]] = some [[0, 1]]
        ∧ c9cfg.maxItpl.getD 0 0 = 1
        ∧ c9cfg.conjugate = true) := by
  rcases loopBody_itpl_bounds cfg st st2 haddr h with ⟨itpl2, hap, hb⟩
  rcases appendLoop_analysis cfg (greedyIdx cfg st.itpl st.bary) _ _ _ hap with
    ⟨_, _, _, hle1, hle0⟩
  refine ⟨?_, ?_, by with_unfolding_all decide, by with_unfolding_all decide,
    by with_unfolding_all decide⟩
  · intro i hnc hcap
    have h1 := hb i
    have h2 := hle0 i hnc
    omega
  · intro i hcap
    have h1 := hb i
    have h2 := hle1 i
    omega

/-- Witness for C9 at the concrete `c5cfg` iteration. -/
theorem C9_cap_bound_witness :
    (c5st.itplAddr < c5st.ph.length)
    ∧ (loopBody c5cfg c5st = StepRes.cont c5st2
        ∨ loopBody c5cfg c5st = StepRes.nspBrk c5st2)
    ∧ (∀ i, ¬ (i = 0 ∧ c5cfg.conjugate = true) →
        (c5st.itpl.getD i []).length ≤ c5cfg.maxItpl.getD i 0 →
        (c5st2.itpl.getD i []).length ≤ c5cfg.maxItpl.getD i 0)
    ∧ (∀ i, (c5st.itpl.getD i []).length ≤ c5cfg.maxItpl.getD i 0 →
        (c5st2.itpl.getD i []).length ≤ c5cfg.maxItpl.getD i 0 + 1) :=
  ⟨by decide, Or.inl (by with_unfolding_all decide),
    (C9_cap_bound c5cfg c5st c5st2 (by decide)
      (Or.inl (by with_unfolding_all decide))).1,
    (C9_cap_bound c5cfg c5st c5st2 (by decide)
      (Or.inl (by with_unfolding_all decide))).2.1⟩

/-- C10: When the caller passes a partition object (`itpl_part` not
`None`), `reduce` adopts it by reference — no copy is allocated (the heap
size is unchanged), every other heap cell is untouched, and after the
call the reductor's partition address is still the caller's object, which
now holds the final (greedily grown and possibly post-processing
truncated) interpolation partition. -/
theorem C10_partition_aliasing (sampling_values : List (List Cx)) (samplesIn : Tensor Cx)
    (conjugate postProcess : Bool) (O : Oracle) (tol : ℚ)
    (ph : PHeap) (a : ℕ) (maxItplArg : Option (List ℕ)) (out : RedOut)
    (ha : a < ph.length)
    (h : reduceCore sampling_values samplesIn conjugate postProcess O tol ph (some a)
        maxItplArg = some out) :
    out.itplAddr = a
    ∧ out.ph.length = ph.length
    ∧ (∀ b, b ≠ a → out.ph.getD b [] = ph.getD b []) := by
  simp only [reduceCore, allocItpl] at h
  rcases hgo : loopGo
      (mkCfg sampling_values samplesIn conjugate postProcess O tol maxItplArg)
      (fuelBound (mkCfg sampling_values samplesIn conjugate postProcess O tol maxItplArg))
      (initState ph a
        (mkCfg sampling_values samplesIn conjugate postProcess O tol
          maxItplArg).samples) with _ | res
  all_goals rw [hgo] at h
  · exact absurd h (by simp)
  · cases res with
    | errOut =>
        simp only [Option.some.injEq] at h
        subst h
        exact ⟨rfl, rfl, fun b _ => rfl⟩
    | done stF =>
        simp only [Option.some.injEq] at h
        subst h
        have hfacts := loopGo_done_facts
          (mkCfg sampling_values samplesIn conjugate postProcess O tol maxItplArg)
          (fuelBound
            (mkCfg sampling_values samplesIn conjugate postProcess O tol maxItplArg))
          (initState ph a
            (mkCfg sampling_values samplesIn conjugate postProcess O tol
              maxItplArg).samples)
          stF ha hgo
        exact ⟨hfacts.1, hfacts.2.1, hfacts.2.2.1⟩

/-- Witness for C10: a caller-supplied one-variable partition object at
address 0 on a singleton heap. -/
theorem C10_partition_aliasing_witness :
    (0 < ([[[]]] : PHeap).length)
    ∧ reduceCore [[Cx.ofRat 0]] ⟨[1], [Cx.ofRat 5]⟩ false false trivOracle 0
        [[[]]] (some 0) none
      = some { ph := [[[]]], itplAddr := 0, log := [], rom := none, ok := true }
    ∧ ({ ph := [[[]]], itplAddr := 0, log := [], rom := none, ok := true }
        : RedOut).itplAddr = 0
    ∧ (∀ b, b ≠ 0 →
        ({ ph := [[[]]], itplAddr := 0, log := [], rom := none, ok := true }
          : RedOut).ph.getD b [] = ([[[]]] : PHeap).getD b []) :=
  ⟨by decide, by with_unfolding_all decide,
    (C10_partition_aliasing [[Cx.ofRat 0]] ⟨[1], [Cx.ofRat 5]⟩ false false trivOracle 0
      [[[]]] 0 none _ (by decide) (by with_unfolding_all decide)).1,
    (C10_partition_aliasing [[Cx.ofRat 0]] ⟨[1], [Cx.ofRat 5]⟩ false false trivOracle 0
      [[[]]] 0 none _ (by decide) (by with_unfolding_all decide)).2.2⟩
